import Mathlib

/-!
# Verification of the d-vecDB core against its specification

This file gives a shallow embedding, in Lean 4, of the core data model and
operations of the d-vecDB vector database (Rust), and settles a list of
claims about it.  The embedding follows the Rust sources:

* `storage/src/wal.rs`      — write-ahead log framing (`append`, `read_all`);
* `storage/src/mmap.rs`     — memory-mapped append storage (`append`, `grow`);
* `storage/src/lib.rs`      — storage engine operation ordering;
* `storage/src/recovery.rs` — WAL replay validation;
* `vectorstore/src/lib.rs`  — the vector-store coordinator (`batch_insert`);
* `index/src/hnsw.rs`, `index/src/node.rs` — the HNSW index
  (`insert`, `delete`, `search`, `search_layer`).

Modelling conventions: Rust machine integers are `ℕ` with explicit `% 2^w`
at the places the source casts or serialises them; `f32` vector components
and distances are an abstract linearly ordered scalar in the index model
(the index consumes them only through the distance function and order
comparisons; concrete runs use `ℤ`-valued inputs, on which `f32`
arithmetic is exact) and 32-bit patterns in the serialisation model;
`HashMap`/`HashSet` are
association lists / lists with the map and set operations the source uses;
fallible Rust functions return `Except`/`Option`; loops whose bound is not
structural take an explicit fuel argument that dominates their iteration
count.  Randomness (`select_layer`) and the environment (entry UUIDs,
timestamps) are explicit parameters.
-/

set_option maxHeartbeats 1000000

namespace DVec

/-- Model of the UTF-8 byte content of a Rust `String` / `CollectionId`. -/
abbrev ByteStr := List ℕ

/-- Model of the subset of `serde_json::Value` metadata values exercised here
(null, booleans, strings); the variant tags follow `serde_json::Value`'s
declaration order (Null = 0, Bool = 1, String = 3).  The claims under
verification do not depend on the remaining variants. -/
inductive JsonVal where
  | null : JsonVal
  | bool (b : Bool) : JsonVal
  | str (s : ByteStr) : JsonVal
deriving DecidableEq

/-- Model of `common/src/types.rs` `DistanceMetric`. -/
inductive DistanceMetric where
  | cosine | euclidean | dotProduct | manhattan
deriving DecidableEq

/-- Model of `common/src/types.rs` `VectorType`. -/
inductive VectorType where
  | float32 | float16 | int8
deriving DecidableEq

/-- Model of `common/src/types.rs` `IndexConfig` (all fields `usize`). -/
structure IndexConfig where
  maxConnections : ℕ
  efConstruction : ℕ
  efSearch : ℕ
  maxLayer : ℕ
deriving DecidableEq

/-- Model of `common/src/types.rs` `CollectionConfig`. -/
structure CollectionConfig where
  name : ByteStr
  dimension : ℕ
  distanceMetric : DistanceMetric
  vectorType : VectorType
  indexConfig : IndexConfig
deriving DecidableEq

/-- Model of `common/src/types.rs` `Vector`: `id` is the 128-bit UUID as a
natural number, `data` holds the 32-bit patterns of the `f32` components. -/
structure Vector where
  id : ℕ
  data : List ℕ
  metadata : Option (List (ByteStr × JsonVal))
deriving DecidableEq

/-- Model of `storage/src/wal.rs` `WALOperation`. -/
inductive WALOperation where
  | createCollection (config : CollectionConfig)
  | deleteCollection (name : ByteStr)
  | insertVector (collection : ByteStr) (vector : Vector)
  | batchInsert (collection : ByteStr) (vectors : List Vector)
  | deleteVector (collection : ByteStr) (id : ℕ)
deriving DecidableEq

/-- Model of `storage/src/wal.rs` `WALEntry`. -/
structure WALEntry where
  id : ℕ
  timestamp : ℕ
  checksum : ℕ
  operation : WALOperation
deriving DecidableEq

/-- Model of `common/src/error.rs` `VectorDbError` (the variants the embedded
operations produce). -/
inductive VectorDbError where
  | collectionNotFound (name : ByteStr)
  | collectionAlreadyExists (name : ByteStr)
  | invalidDimension (expected actual : ℕ)
  | serialization
  | ioError
  | internal
deriving DecidableEq

/-! ## Little-endian byte serialisation (bincode model)

`bincode::serialize` with its default options writes integers little-endian
at fixed width, collection lengths as `u64`, enum variants as `u32` indices,
`Option` as a one-byte tag, `bool` as one byte, and `Uuid` through
`serialize_bytes` (a `u64` length 16 followed by the 16 raw bytes). -/

/-- Little-endian bytes of `n`, `k` bytes wide (truncating, as a cast does). -/
def natLeBytes : ℕ → ℕ → List ℕ
  | 0, _ => []
  | k + 1, n => n % 256 :: natLeBytes k (n / 256)

/-- Recombine little-endian bytes into a natural number. -/
def natFromLeBytes : List ℕ → ℕ
  | [] => 0
  | b :: rest => b + 256 * natFromLeBytes rest

theorem length_natLeBytes (k n : ℕ) : (natLeBytes k n).length = k := by
  induction k generalizing n with
  | zero => rfl
  | succ k ih => simp [natLeBytes, ih]

theorem natFromLeBytes_natLeBytes (k n : ℕ) :
    natFromLeBytes (natLeBytes k n) = n % 256 ^ k := by
  induction k generalizing n with
  | zero => simp [natLeBytes, natFromLeBytes, Nat.mod_one]
  | succ k ih =>
    rw [natLeBytes, natFromLeBytes, ih]
    have h1 : n / 256 % 256 ^ k = n % (256 * 256 ^ k) / 256 :=
      (Nat.mod_mul_right_div_self n 256 (256 ^ k)).symm
    have h2 : n % 256 = n % (256 * 256 ^ k) % 256 :=
      (Nat.mod_mod_of_dvd n ⟨256 ^ k, rfl⟩).symm
    rw [h1, h2, pow_succ, mul_comm (256 ^ k) 256, Nat.mod_add_div]

def encU32 (n : ℕ) : List ℕ := natLeBytes 4 n

def encU64 (n : ℕ) : List ℕ := natLeBytes 8 n

/-- UUIDs serialise through `serialize_bytes`: `u64` length 16, then the 16
little-endian bytes of the 128-bit value. -/
def encUuid (n : ℕ) : List ℕ := encU64 16 ++ natLeBytes 16 n

/-- Byte strings (Rust `String` / `Vec<u8>` content): `u64` length prefix
followed by the raw bytes. -/
def encBytes (s : ByteStr) : List ℕ := encU64 s.length ++ s

def encBool (b : Bool) : List ℕ := [if b then 1 else 0]

def DistanceMetric.tag : DistanceMetric → ℕ
  | .cosine => 0 | .euclidean => 1 | .dotProduct => 2 | .manhattan => 3

def VectorType.tag : VectorType → ℕ
  | .float32 => 0 | .float16 => 1 | .int8 => 2

/-- The hand-written `Serialize` of `serde_json::Value` writes no variant
tag under bincode: `Null` serialises through `serialize_unit` (zero bytes),
`Bool` through `serialize_bool` (one byte) and `String` through
`serialize_str` (`u64` length + bytes). -/
def JsonVal.enc : JsonVal → List ℕ
  | .null => []
  | .bool b => encBool b
  | .str s => encBytes s

def encMetaItem (p : ByteStr × JsonVal) : List ℕ := encBytes p.1 ++ p.2.enc

def encMeta : Option (List (ByteStr × JsonVal)) → List ℕ
  | none => [0]
  | some m => 1 :: (encU64 m.length ++ (m.map encMetaItem).flatten)

def Vector.enc (v : Vector) : List ℕ :=
  encUuid v.id ++ encU64 v.data.length ++ (v.data.map encU32).flatten ++
    encMeta v.metadata

def IndexConfig.enc (c : IndexConfig) : List ℕ :=
  encU64 c.maxConnections ++ encU64 c.efConstruction ++ encU64 c.efSearch ++
    encU64 c.maxLayer

def CollectionConfig.enc (c : CollectionConfig) : List ℕ :=
  encBytes c.name ++ encU64 c.dimension ++ encU32 c.distanceMetric.tag ++
    encU32 c.vectorType.tag ++ c.indexConfig.enc

def WALOperation.enc : WALOperation → List ℕ
  | .createCollection c => encU32 0 ++ c.enc
  | .deleteCollection n => encU32 1 ++ encBytes n
  | .insertVector c v => encU32 2 ++ encBytes c ++ v.enc
  | .batchInsert c vs =>
      encU32 3 ++ encBytes c ++ encU64 vs.length ++ (vs.map Vector.enc).flatten
  | .deleteVector c id => encU32 4 ++ encBytes c ++ encUuid id

/-- Serialisation of a `WALEntry` (`wal.rs` line 71, `bincode::serialize`). -/
def WALEntry.enc (e : WALEntry) : List ℕ :=
  encUuid e.id ++ encU64 e.timestamp ++ encU32 e.checksum ++ e.operation.enc

/-! ### Deserialisation (bincode model, used by `read_all`)

Each decoder consumes a prefix of the byte list and returns the decoded
value together with the unconsumed remainder, or `none` on malformed input
(`bincode::deserialize` returning an error). -/

def readN (k : ℕ) (l : List ℕ) : Option (List ℕ × List ℕ) :=
  if l.length < k then none else some (l.take k, l.drop k)

def decNat (k : ℕ) (l : List ℕ) : Option (ℕ × List ℕ) :=
  (readN k l).map fun p => (natFromLeBytes p.1, p.2)

def decU32 (l : List ℕ) : Option (ℕ × List ℕ) := decNat 4 l

def decU64 (l : List ℕ) : Option (ℕ × List ℕ) := decNat 8 l

def decUuid (l : List ℕ) : Option (ℕ × List ℕ) := do
  let (len, l1) ← decU64 l
  if len = 16 then decNat 16 l1 else none

def decBytes (l : List ℕ) : Option (ByteStr × List ℕ) := do
  let (len, l1) ← decU64 l
  readN len l1

def decBool : List ℕ → Option (Bool × List ℕ)
  | 0 :: r => some (false, r)
  | 1 :: r => some (true, r)
  | _ => none

def decMetric (l : List ℕ) : Option (DistanceMetric × List ℕ) := do
  let (tag, l1) ← decU32 l
  match tag with
  | 0 => some (.cosine, l1)
  | 1 => some (.euclidean, l1)
  | 2 => some (.dotProduct, l1)
  | 3 => some (.manhattan, l1)
  | _ => none

def decVType (l : List ℕ) : Option (VectorType × List ℕ) := do
  let (tag, l1) ← decU32 l
  match tag with
  | 0 => some (.float32, l1)
  | 1 => some (.float16, l1)
  | 2 => some (.int8, l1)
  | _ => none

/-- Deserialisation of `serde_json::Value` calls `deserialize_any`, which
bincode's non-self-describing format rejects with
`DeserializeAnyNotSupported`: decoding a metadata value always fails,
whatever the bytes are. -/
def JsonVal.dec (_ : List ℕ) : Option (JsonVal × List ℕ) := none

def decMetaItems : ℕ → List ℕ → Option (List (ByteStr × JsonVal) × List ℕ)
  | 0, l => some ([], l)
  | k + 1, l => do
    let (s, l1) ← decBytes l
    let (j, l2) ← JsonVal.dec l1
    let (rest, l3) ← decMetaItems k l2
    some ((s, j) :: rest, l3)

def decMeta : List ℕ → Option (Option (List (ByteStr × JsonVal)) × List ℕ)
  | 0 :: r => some (none, r)
  | 1 :: r => do
    let (len, l1) ← decU64 r
    let (items, l2) ← decMetaItems len l1
    some (some items, l2)
  | _ => none

def decF32s : ℕ → List ℕ → Option (List ℕ × List ℕ)
  | 0, l => some ([], l)
  | k + 1, l => do
    let (x, l1) ← decU32 l
    let (rest, l2) ← decF32s k l1
    some (x :: rest, l2)

def Vector.dec (l : List ℕ) : Option (Vector × List ℕ) := do
  let (id, l1) ← decUuid l
  let (n, l2) ← decU64 l1
  let (data, l3) ← decF32s n l2
  let (md, l4) ← decMeta l3
  some (⟨id, data, md⟩, l4)

def decVectors : ℕ → List ℕ → Option (List Vector × List ℕ)
  | 0, l => some ([], l)
  | k + 1, l => do
    let (v, l1) ← Vector.dec l
    let (rest, l2) ← decVectors k l1
    some (v :: rest, l2)

def IndexConfig.dec (l : List ℕ) : Option (IndexConfig × List ℕ) := do
  let (mc, l1) ← decU64 l
  let (efc, l2) ← decU64 l1
  let (efs, l3) ← decU64 l2
  let (ml, l4) ← decU64 l3
  some (⟨mc, efc, efs, ml⟩, l4)

def CollectionConfig.dec (l : List ℕ) : Option (CollectionConfig × List ℕ) := do
  let (name, l1) ← decBytes l
  let (dim, l2) ← decU64 l1
  let (metric, l3) ← decMetric l2
  let (vt, l4) ← decVType l3
  let (ic, l5) ← IndexConfig.dec l4
  some (⟨name, dim, metric, vt, ic⟩, l5)

def WALOperation.dec (l : List ℕ) : Option (WALOperation × List ℕ) := do
  let (tag, l1) ← decU32 l
  match tag with
  | 0 => do
    let (c, l2) ← CollectionConfig.dec l1
    some (.createCollection c, l2)
  | 1 => do
    let (n, l2) ← decBytes l1
    some (.deleteCollection n, l2)
  | 2 => do
    let (c, l2) ← decBytes l1
    let (v, l3) ← Vector.dec l2
    some (.insertVector c v, l3)
  | 3 => do
    let (c, l2) ← decBytes l1
    let (n, l3) ← decU64 l2
    let (vs, l4) ← decVectors n l3
    some (.batchInsert c vs, l4)
  | 4 => do
    let (c, l2) ← decBytes l1
    let (id, l3) ← decUuid l2
    some (.deleteVector c id, l3)
  | _ => none

def WALEntry.dec (l : List ℕ) : Option (WALEntry × List ℕ) := do
  let (id, l1) ← decUuid l
  let (ts, l2) ← decU64 l1
  let (ck, l3) ← decU32 l2
  let (op, l4) ← WALOperation.dec l3
  some (⟨id, ts, ck, op⟩, l4)

/-! ### Well-formedness bounds

The round trip through fixed-width little-endian fields is exact only for
values within the machine widths the source uses; `wf` collects exactly
those bounds. -/

def wfBytes (s : ByteStr) : Bool := decide (s.length < 2 ^ 64)

def JsonVal.wf : JsonVal → Bool
  | .null => true
  | .bool _ => true
  | .str s => wfBytes s

def wfMeta : Option (List (ByteStr × JsonVal)) → Bool
  | none => true
  | some m =>
      decide (m.length < 2 ^ 64) && m.all fun p => wfBytes p.1 && p.2.wf

def Vector.wf (v : Vector) : Bool :=
  decide (v.id < 2 ^ 128) && decide (v.data.length < 2 ^ 64) &&
    (v.data.all fun x => decide (x < 2 ^ 32)) && wfMeta v.metadata

def IndexConfig.wf (c : IndexConfig) : Bool :=
  decide (c.maxConnections < 2 ^ 64) && decide (c.efConstruction < 2 ^ 64) &&
    decide (c.efSearch < 2 ^ 64) && decide (c.maxLayer < 2 ^ 64)

def CollectionConfig.wf (c : CollectionConfig) : Bool :=
  wfBytes c.name && decide (c.dimension < 2 ^ 64) && c.indexConfig.wf

def WALOperation.wf : WALOperation → Bool
  | .createCollection c => c.wf
  | .deleteCollection n => wfBytes n
  | .insertVector c v => wfBytes c && v.wf
  | .batchInsert c vs =>
      wfBytes c && decide (vs.length < 2 ^ 64) && vs.all Vector.wf
  | .deleteVector c id => wfBytes c && decide (id < 2 ^ 128)

/-- The metadata map is absent or empty: exactly the vectors whose entries
`bincode::deserialize` can read back, since any present metadata value hits
the `deserialize_any` failure of `JsonVal.dec`. -/
def emptyMeta : Option (List (ByteStr × JsonVal)) → Bool
  | none => true
  | some m => m.isEmpty

/-- No vector carried by the operation has a non-empty metadata map. -/
def WALOperation.metaEmpty : WALOperation → Bool
  | .insertVector _ v => emptyMeta v.metadata
  | .batchInsert _ vs => vs.all fun v => emptyMeta v.metadata
  | _ => true

/-! ### Round-trip lemmas: each decoder inverts its encoder -/

theorem readN_append (a r : List ℕ) : readN a.length (a ++ r) = some (a, r) := by
  unfold readN
  rw [if_neg (by simp), List.take_left, List.drop_left]

theorem decNat_enc (k n : ℕ) (r : List ℕ) :
    decNat k (natLeBytes k n ++ r) = some (n % 256 ^ k, r) := by
  have h := readN_append (natLeBytes k n) r
  rw [length_natLeBytes] at h
  unfold decNat
  rw [h, Option.map_some']
  rw [natFromLeBytes_natLeBytes]

theorem decU32_enc (n : ℕ) (r : List ℕ) :
    decU32 (encU32 n ++ r) = some (n % 2 ^ 32, r) := by
  have h : (256 : ℕ) ^ 4 = 2 ^ 32 := by norm_num
  simpa [decU32, encU32, h] using decNat_enc 4 n r

theorem decU64_enc (n : ℕ) (r : List ℕ) :
    decU64 (encU64 n ++ r) = some (n % 2 ^ 64, r) := by
  have h : (256 : ℕ) ^ 8 = 2 ^ 64 := by norm_num
  simpa [decU64, encU64, h] using decNat_enc 8 n r

theorem decUuid_enc (n : ℕ) (r : List ℕ) :
    decUuid (encUuid n ++ r) = some (n % 2 ^ 128, r) := by
  have h16 : decU64 (encU64 16 ++ (natLeBytes 16 n ++ r)) =
      some (16, natLeBytes 16 n ++ r) := by
    simpa using decU64_enc 16 (natLeBytes 16 n ++ r)
  have h : (256 : ℕ) ^ 16 = 2 ^ 128 := by norm_num
  simp only [decUuid, encUuid, List.append_assoc, h16, Option.bind_eq_bind,
    Option.some_bind, if_pos rfl]
  simpa [h] using decNat_enc 16 n r

theorem decBytes_enc (s : ByteStr) (r : List ℕ) (h : s.length < 2 ^ 64) :
    decBytes (encBytes s ++ r) = some (s, r) := by
  have h1 : decU64 (encU64 s.length ++ (s ++ r)) = some (s.length, s ++ r) := by
    have h2 := decU64_enc s.length (s ++ r)
    rwa [Nat.mod_eq_of_lt h] at h2
  simp only [decBytes, encBytes, List.append_assoc, h1, Option.bind_eq_bind,
    Option.some_bind]
  exact readN_append s r

theorem decBool_enc (b : Bool) (r : List ℕ) :
    decBool (encBool b ++ r) = some (b, r) := by
  cases b <;> rfl

theorem decMetric_enc (m : DistanceMetric) (r : List ℕ) :
    decMetric (encU32 m.tag ++ r) = some (m, r) := by
  cases m <;>
    simp [decMetric, DistanceMetric.tag, decU32_enc, Option.bind_eq_bind]

theorem decVType_enc (t : VectorType) (r : List ℕ) :
    decVType (encU32 t.tag ++ r) = some (t, r) := by
  cases t <;>
    simp [decVType, VectorType.tag, decU32_enc, Option.bind_eq_bind]

theorem jsonVal_dec_none (l : List ℕ) : JsonVal.dec l = none := rfl

theorem decMetaItems_succ_none (k : ℕ) (l : List ℕ) :
    decMetaItems (k + 1) l = none := by
  rcases h : decBytes l with _ | p <;>
    simp [decMetaItems, h, JsonVal.dec]

theorem decMeta_enc (md : Option (List (ByteStr × JsonVal))) (r : List ℕ)
    (h : emptyMeta md = true) :
    decMeta (encMeta md ++ r) = some (md, r) := by
  cases md with
  | none => rfl
  | some m =>
    cases m with
    | cons p rest =>
      rw [emptyMeta] at h
      exact absurd h (by simp)
    | nil =>
      have h1 : decU64 (encU64 0 ++ r) = some (0, r) := by
        simpa using decU64_enc 0 r
      show decMeta (1 :: (encU64 0 ++ []) ++ r) = some (some [], r)
      rw [List.append_nil]
      show decMeta (1 :: (encU64 0 ++ r)) = some (some [], r)
      rw [decMeta, h1]
      rfl

theorem decF32s_enc (data : List ℕ) (r : List ℕ)
    (h : ∀ x ∈ data, x < 2 ^ 32) :
    decF32s data.length ((data.map encU32).flatten ++ r) = some (data, r) := by
  induction data generalizing r with
  | nil => rfl
  | cons x rest ih =>
    have hx : x % 2 ^ 32 = x := Nat.mod_eq_of_lt (h x (List.mem_cons_self _ _))
    simp only [List.map_cons, List.flatten_cons, List.length_cons,
      List.append_assoc, decF32s, Option.bind_eq_bind]
    rw [decU32_enc, Option.some_bind, hx,
      ih _ (fun y hy => h y (List.mem_cons_of_mem _ hy)), Option.some_bind]

theorem vector_dec_enc (v : Vector) (r : List ℕ) (h : v.wf = true)
    (hm : emptyMeta v.metadata = true) :
    Vector.dec (v.enc ++ r) = some (v, r) := by
  simp only [Vector.wf, Bool.and_eq_true, decide_eq_true_eq,
    List.all_eq_true] at h
  obtain ⟨⟨⟨hid, hlen⟩, hdata⟩, hmd⟩ := h
  have h1 : decU64 (encU64 v.data.length ++
      ((v.data.map encU32).flatten ++ (encMeta v.metadata ++ r))) =
      some (v.data.length, (v.data.map encU32).flatten ++ (encMeta v.metadata ++ r)) := by
    have h2 := decU64_enc v.data.length
      ((v.data.map encU32).flatten ++ (encMeta v.metadata ++ r))
    rwa [Nat.mod_eq_of_lt hlen] at h2
  simp only [Vector.dec, Vector.enc, List.append_assoc, Option.bind_eq_bind]
  rw [decUuid_enc, Option.some_bind, Nat.mod_eq_of_lt hid, h1, Option.some_bind,
    decF32s_enc _ _ (fun x hx => by simpa using hdata x hx), Option.some_bind,
    decMeta_enc _ _ hm, Option.some_bind]

theorem decVectors_enc (vs : List Vector) (r : List ℕ)
    (h : ∀ v ∈ vs, v.wf = true)
    (hm : ∀ v ∈ vs, emptyMeta v.metadata = true) :
    decVectors vs.length ((vs.map Vector.enc).flatten ++ r) = some (vs, r) := by
  induction vs generalizing r with
  | nil => rfl
  | cons v rest ih =>
    simp only [List.map_cons, List.flatten_cons, List.length_cons,
      List.append_assoc, decVectors, Option.bind_eq_bind]
    rw [vector_dec_enc _ _ (h v (List.mem_cons_self _ _))
        (hm v (List.mem_cons_self _ _)), Option.some_bind,
      ih _ (fun w hw => h w (List.mem_cons_of_mem _ hw))
        (fun w hw => hm w (List.mem_cons_of_mem _ hw)), Option.some_bind]

theorem indexConfig_dec_enc (c : IndexConfig) (r : List ℕ) (h : c.wf = true) :
    IndexConfig.dec (c.enc ++ r) = some (c, r) := by
  simp only [IndexConfig.wf, Bool.and_eq_true, decide_eq_true_eq] at h
  obtain ⟨⟨⟨h1, h2⟩, h3⟩, h4⟩ := h
  simp only [IndexConfig.dec, IndexConfig.enc, List.append_assoc,
    Option.bind_eq_bind]
  rw [decU64_enc, Option.some_bind, Nat.mod_eq_of_lt h1,
    decU64_enc, Option.some_bind, Nat.mod_eq_of_lt h2,
    decU64_enc, Option.some_bind, Nat.mod_eq_of_lt h3,
    decU64_enc, Option.some_bind, Nat.mod_eq_of_lt h4]

theorem collectionConfig_dec_enc (c : CollectionConfig) (r : List ℕ)
    (h : c.wf = true) :
    CollectionConfig.dec (c.enc ++ r) = some (c, r) := by
  simp only [CollectionConfig.wf, Bool.and_eq_true, decide_eq_true_eq,
    wfBytes] at h
  obtain ⟨⟨hname, hdim⟩, hic⟩ := h
  simp only [CollectionConfig.dec, CollectionConfig.enc, List.append_assoc,
    Option.bind_eq_bind]
  rw [decBytes_enc _ _ hname, Option.some_bind, decU64_enc, Option.some_bind,
    Nat.mod_eq_of_lt hdim, decMetric_enc, Option.some_bind,
    decVType_enc, Option.some_bind, indexConfig_dec_enc _ _ hic,
    Option.some_bind]

theorem walOperation_dec_enc (op : WALOperation) (r : List ℕ)
    (h : op.wf = true) (hm : op.metaEmpty = true) :
    WALOperation.dec (op.enc ++ r) = some (op, r) := by
  cases op with
  | createCollection c =>
    simp only [WALOperation.dec, WALOperation.enc, List.append_assoc,
      Option.bind_eq_bind]
    rw [decU32_enc, Option.some_bind]
    simpa using congrArg (Option.bind · _) (collectionConfig_dec_enc c r h) |>.trans
      (by rw [Option.some_bind])
  | deleteCollection n =>
    have hn : n.length < 2 ^ 64 := by simpa [WALOperation.wf, wfBytes] using h
    simp only [WALOperation.dec, WALOperation.enc, List.append_assoc,
      Option.bind_eq_bind]
    rw [decU32_enc, Option.some_bind]
    simp [decBytes_enc _ _ hn]
  | insertVector c v =>
    simp only [WALOperation.wf, Bool.and_eq_true, wfBytes,
      decide_eq_true_eq] at h
    simp only [WALOperation.dec, WALOperation.enc, List.append_assoc,
      Option.bind_eq_bind]
    have hmv : emptyMeta v.metadata = true := by
      simpa [WALOperation.metaEmpty] using hm
    rw [decU32_enc, Option.some_bind]
    simp [decBytes_enc _ _ h.1, vector_dec_enc _ _ h.2 hmv]
  | batchInsert c vs =>
    simp only [WALOperation.wf, Bool.and_eq_true, wfBytes, decide_eq_true_eq,
      List.all_eq_true] at h
    obtain ⟨⟨hc, hn⟩, hvs⟩ := h
    simp only [WALOperation.dec, WALOperation.enc, List.append_assoc,
      Option.bind_eq_bind]
    rw [decU32_enc, Option.some_bind]
    simp only [decBytes_enc _ _ hc, Option.some_bind]
    have hmv : ∀ v ∈ vs, emptyMeta v.metadata = true := by
      simpa [WALOperation.metaEmpty, List.all_eq_true] using hm
    rw [decU64_enc, Option.some_bind, Nat.mod_eq_of_lt hn,
      decVectors_enc _ _ hvs hmv, Option.some_bind]
  | deleteVector c id =>
    simp only [WALOperation.wf, Bool.and_eq_true, wfBytes,
      decide_eq_true_eq] at h
    simp only [WALOperation.dec, WALOperation.enc, List.append_assoc,
      Option.bind_eq_bind]
    rw [decU32_enc, Option.some_bind]
    simp only [decBytes_enc _ _ h.1, Option.some_bind, decUuid_enc]
    rw [Nat.mod_eq_of_lt h.2]

theorem walEntry_dec_enc (e : WALEntry) (r : List ℕ)
    (h : e.operation.wf = true) (hm : e.operation.metaEmpty = true) :
    WALEntry.dec (e.enc ++ r) =
      some (⟨e.id % 2 ^ 128, e.timestamp % 2 ^ 64, e.checksum % 2 ^ 32,
        e.operation⟩, r) := by
  simp only [WALEntry.dec, WALEntry.enc, List.append_assoc,
    Option.bind_eq_bind]
  rw [decUuid_enc, Option.some_bind, decU64_enc, Option.some_bind,
    decU32_enc, Option.some_bind, walOperation_dec_enc _ _ h hm,
    Option.some_bind]

/-! ## Write-ahead log file model (`storage/src/wal.rs`)

A WAL file is a byte list.  `append` (lines 60-89) frames one serialised
entry behind a little-endian `u32` length prefix computed by the cast
`serialized.len() as u32` (modelled by the truncation built into `encU32`)
and appends the frame to the file.  `read_all` (lines 92-123) repeatedly
reads a 4-byte prefix (stopping silently when fewer than 4 bytes remain,
the `UnexpectedEof` break), then reads exactly that many payload bytes
(propagating an I/O error when fewer remain), then deserialises the entry
(propagating a serialisation error on failure).  The loop is written with
a fuel argument: each iteration consumes at least four bytes, so a fuel of
`file.length + 1` is never exhausted. -/

def encFrame (e : WALEntry) : List ℕ := encU32 e.enc.length ++ e.enc

def framesOf : List WALEntry → List ℕ
  | [] => []
  | e :: rest => encFrame e ++ framesOf rest

/-- Model of `WriteAheadLog::append`: the entry is built with a fresh UUID,
the current timestamp and `checksum = 0`; UUID and timestamp are explicit
parameters here. -/
def append (file : List ℕ) (uuid timestamp : ℕ) (operation : WALOperation) :
    List ℕ :=
  file ++ encFrame ⟨uuid, timestamp, 0, operation⟩

/-- Appending each operation of `ops` in order, with `uuid i` / `ts i`
supplying the environment of the `i`-th append. -/
def appendMany : List ℕ → List WALOperation → (ℕ → ℕ) → (ℕ → ℕ) → List ℕ
  | file, [], _, _ => file
  | file, op :: rest, uuid, ts =>
      appendMany (append file (uuid 0) (ts 0) op) rest
        (fun i => uuid (i + 1)) (fun i => ts (i + 1))

/-- The entries `appendMany` writes. -/
def entriesOf : List WALOperation → (ℕ → ℕ) → (ℕ → ℕ) → List WALEntry
  | [], _, _ => []
  | op :: rest, uuid, ts =>
      ⟨uuid 0, ts 0, 0, op⟩ ::
        entriesOf rest (fun i => uuid (i + 1)) (fun i => ts (i + 1))

/-- Loop body of `WriteAheadLog::read_all` (lines 97-119). -/
def readAllGo : ℕ → List ℕ → List WALOperation →
    Except VectorDbError (List WALOperation)
  | 0, _, _ => .error .ioError
  | fuel + 1, b0 :: b1 :: b2 :: b3 :: rest, acc =>
      let len := natFromLeBytes [b0, b1, b2, b3]
      if rest.length < len then .error .ioError
      else
        match WALEntry.dec (rest.take len) with
        | none => .error .serialization
        | some (entry, _) =>
            readAllGo fuel (rest.drop len) (acc ++ [entry.operation])
  | _ + 1, _, acc => .ok acc

def readAll (file : List ℕ) : Except VectorDbError (List WALOperation) :=
  readAllGo (file.length + 1) file []

deriving instance DecidableEq for Except

theorem WALEntry.enc_length (e : WALEntry) :
    e.enc.length = 36 + e.operation.enc.length := by
  simp only [WALEntry.enc, encUuid, encU64, encU32, List.length_append,
    length_natLeBytes]

theorem length_encFrame (e : WALEntry) :
    (encFrame e).length = 4 + e.enc.length := by
  simp [encFrame, encU32, length_natLeBytes]

theorem natLeBytes_four (n : ℕ) :
    natLeBytes 4 n =
      [n % 256, n / 256 % 256, n / 256 / 256 % 256, n / 256 / 256 / 256 % 256] := by
  simp [natLeBytes]

/-- Parsing one well-formed frame consumes it and records its operation. -/
theorem readAllGo_frame (fuel : ℕ) (e : WALEntry) (rem : List ℕ)
    (acc : List WALOperation) (hwf : e.operation.wf = true)
    (hme : e.operation.metaEmpty = true) (hlen : e.enc.length < 2 ^ 32) :
    readAllGo (fuel + 1) (encFrame e ++ rem) acc
      = readAllGo fuel rem (acc ++ [e.operation]) := by
  have hcons : encFrame e ++ rem
      = e.enc.length % 256 :: e.enc.length / 256 % 256 ::
        e.enc.length / 256 / 256 % 256 :: e.enc.length / 256 / 256 / 256 % 256 ::
        (e.enc ++ rem) := by
    simp [encFrame, encU32, natLeBytes_four, List.append_assoc]
  have hval : natFromLeBytes [e.enc.length % 256, e.enc.length / 256 % 256,
      e.enc.length / 256 / 256 % 256, e.enc.length / 256 / 256 / 256 % 256]
      = e.enc.length := by
    rw [← natLeBytes_four, natFromLeBytes_natLeBytes,
      show (256 : ℕ) ^ 4 = 2 ^ 32 by norm_num, Nat.mod_eq_of_lt hlen]
  have hdec : WALEntry.dec e.enc
      = some (⟨e.id % 2 ^ 128, e.timestamp % 2 ^ 64, e.checksum % 2 ^ 32,
          e.operation⟩, []) := by
    have h := walEntry_dec_enc e [] hwf hme
    rwa [List.append_nil] at h
  rw [hcons]
  show readAllGo (fuel + 1) (_ :: _ :: _ :: _ :: (e.enc ++ rem)) acc = _
  rw [readAllGo]
  simp only [hval]
  rw [if_neg (by simp [List.length_append])]
  rw [show (e.enc ++ rem).take e.enc.length = e.enc from List.take_left _ _,
    show (e.enc ++ rem).drop e.enc.length = rem from List.drop_left _ _, hdec]

/-- Parsing a run of well-formed frames records their operations in order. -/
theorem readAllGo_frames (entries : List WALEntry) (fuel : ℕ) (rem : List ℕ)
    (acc : List WALOperation)
    (h : ∀ e ∈ entries, e.operation.wf = true ∧
      e.operation.metaEmpty = true ∧ e.enc.length < 2 ^ 32) :
    readAllGo (fuel + entries.length) (framesOf entries ++ rem) acc
      = readAllGo fuel rem (acc ++ entries.map (·.operation)) := by
  induction entries generalizing acc rem with
  | nil => simp [framesOf]
  | cons e rest ih =>
    have he := h e (List.mem_cons_self _ _)
    simp only [framesOf, List.length_cons, List.append_assoc, List.map_cons]
    rw [show fuel + (rest.length + 1) = (fuel + rest.length) + 1 from rfl,
      readAllGo_frame _ _ _ _ he.1 he.2.1 he.2.2,
      ih _ _ (fun x hx => h x (List.mem_cons_of_mem _ hx)),
      List.append_assoc, List.singleton_append]

theorem readAllGo_short (fuel : ℕ) (l : List ℕ) (acc : List WALOperation)
    (h : l.length < 4) : readAllGo (fuel + 1) l acc = .ok acc := by
  rcases l with _ | ⟨a, _ | ⟨b, _ | ⟨c, _ | ⟨d, t⟩⟩⟩⟩
  · rfl
  · rfl
  · rfl
  · rfl
  · simp at h
    omega

theorem length_framesOf_ge (entries : List WALEntry) :
    entries.length ≤ (framesOf entries).length := by
  induction entries with
  | nil => simp [framesOf]
  | cons e rest ih =>
    simp only [framesOf, List.length_append, List.length_cons, length_encFrame]
    omega

theorem appendMany_eq (ops : List WALOperation) (file : List ℕ)
    (uuid ts : ℕ → ℕ) :
    appendMany file ops uuid ts = file ++ framesOf (entriesOf ops uuid ts) := by
  induction ops generalizing file uuid ts with
  | nil => simp [appendMany, entriesOf, framesOf]
  | cons op rest ih =>
    simp only [appendMany, entriesOf, framesOf]
    rw [ih]
    simp [append, List.append_assoc]

theorem entriesOf_map (ops : List WALOperation) (uuid ts : ℕ → ℕ) :
    (entriesOf ops uuid ts).map (·.operation) = ops := by
  induction ops generalizing uuid ts with
  | nil => rfl
  | cons op rest ih => simp [entriesOf, ih]

theorem entriesOf_length (ops : List WALOperation) (uuid ts : ℕ → ℕ) :
    (entriesOf ops uuid ts).length = ops.length := by
  have h := congrArg List.length (entriesOf_map ops uuid ts)
  rwa [List.length_map] at h

/-! ## Claims C8 and C4: WAL round trip and partial trailing frames -/

/-- C8 (amended).  Appending each operation of `ops` in order to a fresh WAL
and then calling `read_all` returns exactly `ops`, in the same order,
provided every operation is within the machine bounds of the encoding, none
of its vectors carries a non-empty metadata map (`serde_json::Value` cannot
be read back through bincode's `deserialize_any`, so a present metadata
value makes `read_all` fail with a serialization error — see the
counterexample), and its serialised entry is shorter than `2^32` bytes (the
length prefix is the truncating cast `serialized.len() as u32`, `wal.rs`
line 75, so larger entries corrupt the framing — see the
counterexample). -/
theorem wal_roundtrip (ops : List WALOperation) (uuid ts : ℕ → ℕ)
    (h : ∀ op ∈ ops, op.wf = true ∧ op.metaEmpty = true ∧
      op.enc.length + 36 < 2 ^ 32) :
    readAll (appendMany [] ops uuid ts) = .ok ops := by
  rw [appendMany_eq, List.nil_append]
  have hcond : ∀ e ∈ entriesOf ops uuid ts,
      e.operation.wf = true ∧ e.operation.metaEmpty = true ∧
        e.enc.length < 2 ^ 32 := by
    intro e he
    have hop : e.operation ∈ ops := by
      rw [← entriesOf_map ops uuid ts]
      exact List.mem_map_of_mem _ he
    obtain ⟨hw, hme, hlen⟩ := h e.operation hop
    refine ⟨hw, hme, ?_⟩
    rw [WALEntry.enc_length]
    omega
  set es := entriesOf ops uuid ts with hes
  have hfl : es.length ≤ (framesOf es).length := length_framesOf_ge es
  unfold readAll
  have hf := readAllGo_frames es ((framesOf es).length + 1 - es.length) [] [] hcond
  rw [List.append_nil, List.nil_append] at hf
  rw [show (framesOf es).length + 1
      = ((framesOf es).length + 1 - es.length) + es.length by omega, hf]
  obtain ⟨m, hm⟩ : ∃ m, (framesOf es).length + 1 - es.length = m + 1 :=
    ⟨(framesOf es).length - es.length, by omega⟩
  rw [hm, readAllGo_short m [] _ (by simp), hes, entriesOf_map]

def c8WitnessOps : List WALOperation := [.deleteCollection [97]]

theorem wal_roundtrip_witness :
    (∀ op ∈ c8WitnessOps, op.wf = true ∧ op.metaEmpty = true ∧
        op.enc.length + 36 < 2 ^ 32) ∧
      readAll (appendMany [] c8WitnessOps (fun _ => 0) (fun _ => 0))
        = .ok c8WitnessOps := by
  have h : ∀ op ∈ c8WitnessOps, op.wf = true ∧ op.metaEmpty = true ∧
      op.enc.length + 36 < 2 ^ 32 := by
    intro op hop
    rw [c8WitnessOps, List.mem_singleton] at hop
    subst hop
    exact ⟨by decide, by decide, by decide⟩
  exact ⟨h, wal_roundtrip c8WitnessOps _ _ h⟩


/-- A single operation whose serialised WAL entry is `48 + 2^32` bytes long:
deleting a collection whose name is `2^32` zero bytes. -/
def c8BigOp : WALOperation := .deleteCollection (List.replicate (2 ^ 32) 0)

/-- The first 48 bytes of the big entry's serialisation (entry header, the
`DeleteCollection` variant tag and the name's `u64` length prefix). -/
def c8Head : List ℕ :=
  encUuid 0 ++ encU64 0 ++ encU32 0 ++ (encU32 1 ++ encU64 (2 ^ 32))

theorem c8Head_length : c8Head.length = 48 := by decide


theorem c8BigOp_split :
    (⟨0, 0, 0, c8BigOp⟩ : WALEntry).enc
      = c8Head ++ List.replicate (2 ^ 32) 0 := by
  show encUuid 0 ++ encU64 0 ++ encU32 0 ++
      (encU32 1 ++ encBytes (List.replicate (2 ^ 32) 0))
      = c8Head ++ List.replicate (2 ^ 32) 0
  rw [encBytes, List.length_replicate, c8Head]
  simp only [List.append_assoc]


/-- An in-bounds operation carrying one metadata entry (`{"k": null}`). -/
def c8MetaOp : WALOperation :=
  .insertVector [99] ⟨1, [0], some [([107], .null)]⟩

/-- C8 (counterexample).  The claim quantifies over *every* finite sequence
of operations, and two classes of operations break the round trip.  For an
operation whose serialised entry reaches `2^32` bytes the `as u32` cast
truncates the length prefix (here to 48), `read_all` deserialises only the
first 48 bytes of the entry and fails.  And for an in-bounds operation
whose vector carries a non-empty metadata map, `append` serialises the
entry but `read_all` fails with a serialization error, because
`serde_json::Value::deserialize` goes through `deserialize_any`, which
bincode rejects. -/
theorem wal_roundtrip_counterexample :
    (readAll (appendMany [] [c8BigOp] (fun _ => 0) (fun _ => 0))
        = .error .serialization ∧
      readAll (appendMany [] [c8BigOp] (fun _ => 0) (fun _ => 0))
        ≠ .ok [c8BigOp]) ∧
      c8MetaOp.wf = true ∧
      readAll (appendMany [] [c8MetaOp] (fun _ => 0) (fun _ => 0))
        = .error .serialization := by
  have hlen1 : (c8Head ++ List.replicate (2 ^ 32) 0).length = 48 + 2 ^ 32 := by
    rw [List.length_append, c8Head_length, List.length_replicate]
  have hfile : appendMany [] [c8BigOp] (fun _ => 0) (fun _ => 0)
      = encU32 (48 + 2 ^ 32) ++ (c8Head ++ List.replicate (2 ^ 32) 0) := by
    show ([] : List ℕ) ++ encFrame ⟨0, 0, 0, c8BigOp⟩ = _
    rw [List.nil_append, encFrame, c8BigOp_split, hlen1]
  have hlen48 : natFromLeBytes [48, 0, 0, 0] = 48 := by decide
  have hpre : encU32 (48 + 2 ^ 32) = [48, 0, 0, 0] := by decide
  have hmain : readAll (appendMany [] [c8BigOp] (fun _ => 0) (fun _ => 0))
      = .error .serialization := by
    rw [readAll, hfile, hpre]
    have hL : ([48, 0, 0, 0] ++ (c8Head ++ List.replicate (2 ^ 32) 0)).length + 1
        = (4 + (48 + 2 ^ 32)) + 1 := by
      rw [List.length_append, hlen1]
      rfl
    rw [hL]
    simp only [List.cons_append, List.nil_append]
    rw [readAllGo]
    simp only [hlen48]
    rw [if_neg (by rw [hlen1]; decide)]
    have htake : List.take 48 (c8Head ++ List.replicate (2 ^ 32) 0) = c8Head := by
      have h1 := List.take_left c8Head (List.replicate (2 ^ 32) 0)
      rwa [c8Head_length] at h1
    have hdec : WALEntry.dec c8Head = none := by decide
    rw [htake, hdec]
  refine ⟨⟨hmain, by rw [hmain]; exact fun hc => Except.noConfusion hc⟩,
    by decide, by decide⟩

/-- C4 (amended).  A partial trailing frame whose *length prefix itself* is
incomplete (fewer than 4 bytes) is dropped silently: `read_all` returns the
operations of the complete frames — provided the complete frames
deserialise at all: in-bounds operations carrying no non-empty metadata map
(a present `serde_json::Value` makes `read_all` fail with a serialization
error on the complete frame itself, since bincode rejects its
`deserialize_any`).  When the 4-byte prefix is complete but the declared
payload is only partially present, `read_all` instead returns an error —
see the counterexample. -/
theorem wal_partial_tail (ops : List WALOperation) (uuid ts : ℕ → ℕ)
    (junk : List ℕ)
    (h : ∀ op ∈ ops, op.wf = true ∧ op.metaEmpty = true ∧
      op.enc.length + 36 < 2 ^ 32)
    (hjunk : junk.length < 4) :
    readAll (appendMany [] ops uuid ts ++ junk) = .ok ops := by
  rw [appendMany_eq, List.nil_append]
  have hcond : ∀ e ∈ entriesOf ops uuid ts,
      e.operation.wf = true ∧ e.operation.metaEmpty = true ∧
        e.enc.length < 2 ^ 32 := by
    intro e he
    have hop : e.operation ∈ ops := by
      rw [← entriesOf_map ops uuid ts]
      exact List.mem_map_of_mem _ he
    obtain ⟨hw, hme, hlen⟩ := h e.operation hop
    refine ⟨hw, hme, ?_⟩
    rw [WALEntry.enc_length]
    omega
  set es := entriesOf ops uuid ts with hes
  have hfl : es.length ≤ (framesOf es).length := length_framesOf_ge es
  unfold readAll
  have hf := readAllGo_frames es
    ((framesOf es ++ junk).length + 1 - es.length) junk [] hcond
  rw [List.nil_append] at hf
  rw [show (framesOf es ++ junk).length + 1
      = ((framesOf es ++ junk).length + 1 - es.length) + es.length by
        simp only [List.length_append]
        omega, hf]
  obtain ⟨m, hm⟩ : ∃ m, (framesOf es ++ junk).length + 1 - es.length = m + 1 :=
    ⟨(framesOf es ++ junk).length - es.length, by
      simp only [List.length_append]
      omega⟩
  rw [hm, readAllGo_short m junk _ hjunk, hes, entriesOf_map]

theorem wal_partial_tail_witness :
    (∀ op ∈ c8WitnessOps, op.wf = true ∧ op.metaEmpty = true ∧
        op.enc.length + 36 < 2 ^ 32) ∧
      ([2, 7] : List ℕ).length < 4 ∧
      readAll (appendMany [] c8WitnessOps (fun _ => 1) (fun _ => 1) ++ [2, 7])
        = .ok c8WitnessOps := by
  have h : ∀ op ∈ c8WitnessOps, op.wf = true ∧ op.metaEmpty = true ∧
      op.enc.length + 36 < 2 ^ 32 := by
    intro op hop
    rw [c8WitnessOps, List.mem_singleton] at hop
    subst hop
    exact ⟨by decide, by decide, by decide⟩
  exact ⟨h, by decide, wal_partial_tail c8WitnessOps _ _ [2, 7] h (by decide)⟩

/-- A WAL file holding one complete frame followed by a partial trailing
frame: a complete 4-byte length prefix declaring 5 payload bytes of which
only 2 are present. -/
def c4File : List ℕ :=
  append [] 0 0 (.deleteCollection [97]) ++ [5, 0, 0, 0, 1, 1]

/-- C4 (counterexample).  On a trailing frame whose declared payload is only
partially present, `read_all` propagates the `UnexpectedEof` of the payload
read (`wal.rs` line 110, `reader.read_exact(&mut entry_data).await?`): it
returns an I/O error instead of dropping the partial frame silently and
returning the complete frames' operations. -/
theorem wal_partial_counterexample :
    readAll c4File = .error .ioError ∧
      readAll c4File ≠ .ok [.deleteCollection [97]] := by
  have h : readAll c4File = .error .ioError := by decide
  exact ⟨h, by rw [h]; exact fun hc => Except.noConfusion hc⟩

/-! ## Claim C9: memory-mapped append storage (`storage/src/mmap.rs`) -/

/-- Model of `MMapStorage` (lines 11-17): the mapped size, the write
position, and the mapped bytes (the path and file handle are irrelevant
here; the mapping always exists in the single-threaded model). -/
structure MMapStorage where
  size : ℕ
  position : ℕ
  mmap : List ℕ
deriving DecidableEq

/-- Model of `MMapStorage::grow` (lines 129-153): `file.set_len(new_size)`
truncates or zero-extends the file and the new mapping covers exactly
`newSize` bytes. -/
def MMapStorage.grow (s : MMapStorage) (newSize : ℕ) : MMapStorage :=
  { size := newSize, position := s.position,
    mmap := s.mmap.take newSize ++ List.replicate (newSize - s.mmap.length) 0 }

/-- Model of `MMapStorage::append` (lines 56-84): grow to
`(position + data.len()) * 2` when the write would overflow the mapping,
copy the bytes at the old position, return that offset and advance the
position. -/
def MMapStorage.append (s : MMapStorage) (data : List ℕ) : ℕ × MMapStorage :=
  let s1 := if s.position + data.length > s.size then
    s.grow ((s.position + data.length) * 2) else s
  (s.position,
    { size := s1.size, position := s.position + data.length,
      mmap := s1.mmap.take s.position ++ data ++
        s1.mmap.drop (s.position + data.length) })

/-- Specification of one `append` call, as claim C9 states it. -/
def MmapAppendSpec (s : MMapStorage) (data : List ℕ) : Prop :=
  (s.position + data.length > s.size →
      (s.append data).2.size = 2 * (s.position + data.length)) ∧
    (s.position + data.length ≤ s.size → (s.append data).2.size = s.size) ∧
    (s.append data).1 = s.position ∧
    (s.append data).2.position = s.position + data.length ∧
    ((s.append data).2.mmap.drop s.position).take data.length = data ∧
    (s.append data).2.mmap.length = (s.append data).2.size

theorem writeAt_slice (m data : List ℕ) (p : ℕ) (hp : p ≤ m.length) :
    ((m.take p ++ data ++ m.drop (p + data.length)).drop p).take data.length
      = data := by
  have h1 : (m.take p).length = p := by
    rw [List.length_take]
    omega
  rw [List.append_assoc, List.drop_left' h1, List.take_left]

theorem writeAt_length (m data : List ℕ) (p : ℕ)
    (hp : p + data.length ≤ m.length) :
    (m.take p ++ data ++ m.drop (p + data.length)).length = m.length := by
  simp only [List.length_append, List.length_take, List.length_drop]
  omega

/-- C9.  For every mmap-storage append of `n` bytes at write position `p`
over a consistent state (mapping length = mapped size): growth to exactly
`2*(p+n)` happens whenever `p+n` exceeds the mapped size and is skipped
otherwise; the bytes land at offset `p`; `p` is returned; and the position
afterwards is `p+n`. -/
theorem mmap_append_spec (s : MMapStorage) (data : List ℕ)
    (hinv : s.mmap.length = s.size) : MmapAppendSpec s data := by
  by_cases hg : s.position + data.length > s.size
  · have hs1 : (if s.position + data.length > s.size then
        s.grow ((s.position + data.length) * 2) else s)
        = s.grow ((s.position + data.length) * 2) := if_pos hg
    have hglen : (s.grow ((s.position + data.length) * 2)).mmap.length
        = (s.position + data.length) * 2 := by
      simp only [MMapStorage.grow, List.length_append, List.length_take,
        List.length_replicate]
      omega
    have hsize : (s.grow ((s.position + data.length) * 2)).size
        = (s.position + data.length) * 2 := rfl
    have happ : s.append data = (s.position,
        { size := (s.grow ((s.position + data.length) * 2)).size,
          position := s.position + data.length,
          mmap := (s.grow ((s.position + data.length) * 2)).mmap.take s.position
            ++ data ++ (s.grow ((s.position + data.length) * 2)).mmap.drop
              (s.position + data.length) }) := by
      simp only [MMapStorage.append]
      rw [hs1]
    refine ⟨fun _ => ?_, fun hc => absurd hc (by omega), ?_, ?_, ?_, ?_⟩
    · rw [happ, hsize]
      show (s.position + data.length) * 2 = 2 * (s.position + data.length)
      ring
    · rw [happ]
    · rw [happ]
    · rw [happ]
      exact writeAt_slice _ data s.position (by rw [hglen]; omega)
    · rw [happ]
      show ((s.grow ((s.position + data.length) * 2)).mmap.take s.position
          ++ data ++ _).length = _
      rw [writeAt_length _ data s.position (by rw [hglen]; omega), hglen, hsize]
  · have hle : s.position + data.length ≤ s.size := by omega
    have hs1 : (if s.position + data.length > s.size then
        s.grow ((s.position + data.length) * 2) else s) = s := if_neg hg
    have happ : s.append data = (s.position,
        { size := s.size, position := s.position + data.length,
          mmap := s.mmap.take s.position ++ data ++ s.mmap.drop
            (s.position + data.length) }) := by
      simp only [MMapStorage.append]
      rw [hs1]
    refine ⟨fun hc => absurd hc hg, fun _ => ?_, ?_, ?_, ?_, ?_⟩
    · rw [happ]
    · rw [happ]
    · rw [happ]
    · rw [happ]
      exact writeAt_slice _ data s.position (by omega)
    · rw [happ]
      show (s.mmap.take s.position ++ data ++ _).length = _
      rw [writeAt_length _ data s.position (by omega), hinv]

theorem mmap_append_spec_witness :
    ((⟨4, 2, [9, 9, 9, 9]⟩ : MMapStorage).mmap.length = (4 : ℕ)) ∧
      MmapAppendSpec ⟨4, 2, [9, 9, 9, 9]⟩ [7, 7, 7] :=
  ⟨rfl, mmap_append_spec ⟨4, 2, [9, 9, 9, 9]⟩ [7, 7, 7] rfl⟩

/-! ## Claim C5: recovery validation (`vectordb-rs/storage/src/recovery.rs`) -/

/-- Model of `HashSet::insert` on the running collection set. -/
def setInsert (n : ByteStr) (k : List ByteStr) : List ByteStr :=
  if n ∈ k then k else n :: k

/-- Model of `HashSet::remove` on the running collection set. -/
def setRemove (n : ByteStr) (k : List ByteStr) : List ByteStr :=
  k.erase n

/-- Model of `RecoveryManager::validate_operation` (recovery.rs lines
60-115).  `none` models the `Err` return; on success the (possibly
mutated) running set is returned.  The seed comes from
`discover_existing_collections`, modelled as the `known` parameter of
`validateOperations`.  Note `InsertVector` checks only collection
presence (line 82: the vector is bound as `_`); only `BatchInsert`
checks the vectors for empty payloads (lines 96-103). -/
def validateOperation (op : WALOperation) (known : List ByteStr) :
    Option (List ByteStr) :=
  match op with
  | .createCollection config =>
      if config.name ∈ known then none else some (setInsert config.name known)
  | .deleteCollection name =>
      if name ∈ known then some (setRemove name known) else none
  | .insertVector collection _ =>
      if collection ∈ known then some known else none
  | .batchInsert collection vectors =>
      if collection ∈ known then
        if vectors.all (fun v => !v.data.isEmpty) then some known else none
      else none
  | .deleteVector collection _ =>
      if collection ∈ known then some known else none

/-- Model of `RecoveryManager::validate_operations` (recovery.rs lines
40-57): each invalid operation is skipped (with a warning) and validation
continues; valid operations are collected in order. -/
def validateOperations (ops : List WALOperation) (known : List ByteStr) :
    List WALOperation :=
  match ops with
  | [] => []
  | op :: rest =>
    match validateOperation op known with
    | some known1 => op :: validateOperations rest known1
    | none => validateOperations rest known

/-- Validity of one operation against the running set, following the
words of the amended claim: `CreateCollection` requires absence,
`DeleteCollection` presence, vector operations presence, and *batch*
inserts additionally require every vector in the batch to have a
non-empty payload (single-vector inserts are not payload-checked). -/
def ValidOpSpec (op : WALOperation) (known : List ByteStr) : Bool :=
  match op with
  | .createCollection config => decide (config.name ∉ known)
  | .deleteCollection name => decide (name ∈ known)
  | .insertVector collection _ => decide (collection ∈ known)
  | .batchInsert collection vectors =>
      decide (collection ∈ known) && vectors.all (fun v => !v.data.isEmpty)
  | .deleteVector collection _ => decide (collection ∈ known)

/-- Running-set update performed by a valid operation. -/
def specUpdate (op : WALOperation) (known : List ByteStr) : List ByteStr :=
  match op with
  | .createCollection config => setInsert config.name known
  | .deleteCollection name => setRemove name known
  | _ => known

/-- The filter described by the amended claim: keep each operation that is
valid against the running set (updating the set), skip the others. -/
def validFilterSpec : List WALOperation → List ByteStr → List WALOperation
  | [], _ => []
  | op :: rest, known =>
      if ValidOpSpec op known then
        op :: validFilterSpec rest (specUpdate op known)
      else validFilterSpec rest known

theorem validateOperation_eq (op : WALOperation) (known : List ByteStr) :
    validateOperation op known
      = if ValidOpSpec op known then some (specUpdate op known) else none := by
  cases op with
  | createCollection c =>
    by_cases h : c.name ∈ known <;>
      simp [validateOperation, ValidOpSpec, specUpdate, h]
  | deleteCollection n =>
    by_cases h : n ∈ known <;>
      simp [validateOperation, ValidOpSpec, specUpdate, h]
  | insertVector c v =>
    by_cases h : c ∈ known <;>
      simp [validateOperation, ValidOpSpec, specUpdate, h]
  | batchInsert c vs =>
    by_cases h : c ∈ known <;>
      by_cases h2 : vs.all (fun v => !v.data.isEmpty) <;>
        simp [validateOperation, ValidOpSpec, specUpdate, h, h2]
  | deleteVector c id =>
    by_cases h : c ∈ known <;>
      simp [validateOperation, ValidOpSpec, specUpdate, h]

/-- C5 (amended).  Recovery validation checks each WAL operation against a
running set of known collections (seeded from the on-disk directories):
`CreateCollection` is valid only if the name is absent, `DeleteCollection`
only if present, vector operations only if the collection is present, with
*batch* insert operations additionally requiring every vector in the batch
to have a non-empty payload (single-vector inserts are not
payload-checked); each invalid operation is skipped rather than aborting
validation, and the remaining valid operations are returned in their
original order (a sublist of the input). -/
theorem recovery_validate_spec (ops : List WALOperation)
    (known : List ByteStr) :
    validateOperations ops known = validFilterSpec ops known ∧
      (validateOperations ops known).Sublist ops := by
  induction ops generalizing known with
  | nil => exact ⟨rfl, List.Sublist.refl _⟩
  | cons op rest ih =>
    rw [validateOperations, validFilterSpec, validateOperation_eq]
    by_cases h : ValidOpSpec op known
    · rw [if_pos h, if_pos h]
      refine ⟨?_, ?_⟩
      · show op :: validateOperations rest (specUpdate op known)
            = op :: validFilterSpec rest (specUpdate op known)
        rw [(ih (specUpdate op known)).1]
      · show (op :: validateOperations rest (specUpdate op known)).Sublist
            (op :: rest)
        exact List.Sublist.cons₂ op (ih (specUpdate op known)).2
    · rw [if_neg h, if_neg h]
      refine ⟨?_, ?_⟩
      · show validateOperations rest known = validFilterSpec rest known
        exact (ih known).1
      · show (validateOperations rest known).Sublist (op :: rest)
        exact List.Sublist.cons op (ih known).2

/-- A single-vector insert with an empty payload into an existing
collection. -/
def c5Config : CollectionConfig := ⟨[99], 3, .cosine, .float32, ⟨16, 200, 50, 16⟩⟩

def c5Ops : List WALOperation :=
  [.createCollection c5Config, .insertVector [99] ⟨1, [], none⟩]

/-- C5 (counterexample).  The claim as stated requires *every* insert
operation's vectors to have non-empty payloads; the code checks payloads
only for `BatchInsert`, so a single `InsertVector` with an empty payload
is validated and returned rather than skipped. -/
theorem recovery_validate_counterexample :
    validateOperations c5Ops [] = c5Ops ∧
      (⟨1, [], none⟩ : Vector).data.isEmpty = true ∧
      validateOperations c5Ops [] ≠ [.createCollection c5Config] := by
  refine ⟨by decide, by decide, by decide⟩

/-! ## Claims C3 and C10: operation ordering at the storage engine and the
vector store (`storage/src/lib.rs`, `vectorstore/src/lib.rs`)

Each mutation is modelled by the sequence of externally visible
state-changing actions its success path performs, in program order: WAL
appends, directory/file creation and removal, data-file appends, and
in-memory registry/index updates.  The traces are read off the control
flow of the source. -/

inductive FsEvent where
  | walAppend (op : WALOperation)
  | createDir (name : ByteStr)
  | createMmapFile (name : ByteStr) (file : ℕ)
  | registryInsert (name : ByteStr)
  | registryRemove (name : ByteStr)
  | removeDir (name : ByteStr)
  | dataAppend (name : ByteStr)
  | indexInsert (name : ByteStr) (id : ℕ)
deriving DecidableEq

/-- Every event other than the WAL append itself reflects the operation in
the on-disk files or directories or in the in-memory state. -/
def FsEvent.isMutation : FsEvent → Bool
  | .walAppend _ => false
  | _ => true

def walFirstGo : Bool → List FsEvent → Bool
  | _, [] => true
  | _, .walAppend _ :: rest => walFirstGo true rest
  | sawWal, _ :: rest => sawWal && walFirstGo sawWal rest

/-- Checks that every mutation event in the trace is preceded by a WAL
append. -/
def walFirst (tr : List FsEvent) : Bool := walFirstGo false tr

/-- Trace of `StorageEngine::create_collection` (lib.rs lines 43-67),
success path: `CollectionStorage::new` (line 56) creates the collection
directory and the two mmap files `vectors.bin` (file 0) and `index.bin`
(file 1) (lib.rs lines 301-309), *then* the WAL entry is appended
(line 60), then the registry is updated (line 63). -/
def createCollectionTrace (config : CollectionConfig) : List FsEvent :=
  [.createDir config.name, .createMmapFile config.name 0,
   .createMmapFile config.name 1, .walAppend (.createCollection config),
   .registryInsert config.name]

/-- Trace of `StorageEngine::delete_collection` (lib.rs lines 69-95):
WAL append, registry removal, directory removal. -/
def deleteCollectionTrace (name : ByteStr) : List FsEvent :=
  [.walAppend (.deleteCollection name), .registryRemove name,
   .removeDir name]

/-- Trace of `StorageEngine::insert_vector` (lib.rs lines 97-119):
WAL append, then the data-file append. -/
def insertVectorTrace (collection : ByteStr) (v : Vector) : List FsEvent :=
  [.walAppend (.insertVector collection v), .dataAppend collection]

/-- Trace of `StorageEngine::batch_insert` (lib.rs lines 121-143): one WAL
append for the batch, then one data-file append per vector. -/
def batchInsertTrace (collection : ByteStr) (vs : List Vector) :
    List FsEvent :=
  .walAppend (.batchInsert collection vs) ::
    vs.map (fun _ => .dataAppend collection)

/-- Trace of `StorageEngine::delete_vector` (lib.rs lines 160-180): the WAL
entry is appended; `CollectionStorage::delete` is a placeholder returning
`false` without mutating anything (lib.rs lines 351-355). -/
def deleteVectorTrace (collection : ByteStr) (id : ℕ) : List FsEvent :=
  [.walAppend (.deleteVector collection id)]

theorem walFirstGo_true (l : List FsEvent) : walFirstGo true l = true := by
  induction l with
  | nil => rfl
  | cons e rest ih => cases e <;> simp [walFirstGo, ih]

/-- C3 (amended).  For `delete_collection`, `insert_vector`, `batch_insert`
and `delete_vector` the WAL append completes before every state mutation of
the operation; for `create_collection` the collection subdirectory and its
two mmap files are created on disk *before* the WAL append, and only the
in-memory registry insertion follows the WAL append (the trace is exactly
directory creation, the two file creations, the WAL append, the registry
insertion, in that order). -/
theorem storage_wal_order :
    (∀ name, walFirst (deleteCollectionTrace name) = true) ∧
      (∀ collection v, walFirst (insertVectorTrace collection v) = true) ∧
      (∀ collection vs, walFirst (batchInsertTrace collection vs) = true) ∧
      (∀ collection id, walFirst (deleteVectorTrace collection id) = true) ∧
      (∀ config, createCollectionTrace config
        = [.createDir config.name, .createMmapFile config.name 0,
           .createMmapFile config.name 1,
           .walAppend (.createCollection config),
           .registryInsert config.name]) := by
  refine ⟨fun name => ?_, fun collection v => ?_, fun collection vs => ?_,
    fun collection id => ?_, fun config => rfl⟩
  · simp [deleteCollectionTrace, walFirst, walFirstGo, walFirstGo_true]
  · simp [insertVectorTrace, walFirst, walFirstGo, walFirstGo_true]
  · simp [batchInsertTrace, walFirst, walFirstGo, walFirstGo_true]
  · simp [deleteVectorTrace, walFirst, walFirstGo, walFirstGo_true]

def c3Config : CollectionConfig :=
  ⟨[100], 3, .euclidean, .float32, ⟨16, 200, 50, 16⟩⟩

/-- C3 (counterexample).  In `create_collection` the collection directory
and both mmap files exist on disk before the WAL append: the trace's first
event is already a state mutation (the directory creation) while the WAL
append only occurs at position 3, so the claimed WAL-before-mutation order
is violated. -/
theorem storage_wal_order_counterexample :
    walFirst (createCollectionTrace c3Config) = false ∧
      (createCollectionTrace c3Config).head? = some (.createDir [100]) ∧
      (.createDir [100] : FsEvent).isMutation = true ∧
      (createCollectionTrace c3Config)[3]?
        = some (.walAppend (.createCollection c3Config)) := by
  refine ⟨by decide, by decide, by decide, by decide⟩

/-- Association-list model of the storage engine's collection registry. -/
def lookupConfig : List (ByteStr × CollectionConfig) → ByteStr →
    Option CollectionConfig
  | [], _ => none
  | (k, v) :: rest, name => if k = name then some v else lookupConfig rest name

/-- Model of `VectorStore::batch_insert` (vectorstore/src/lib.rs lines
99-137): the result together with the trace of state-changing actions
performed.  The empty-batch early return (line 103) precedes the
collection lookup (line 108); then every vector's dimension is validated,
the storage engine's `batch_insert` runs (WAL append plus data appends),
and finally each vector is inserted into the in-memory index if one exists
for the collection (`if let Some(index)`, line 128). -/
def vsBatchInsert (configs : List (ByteStr × CollectionConfig))
    (indexes : List ByteStr) (collection : ByteStr) (vectors : List Vector) :
    Except VectorDbError (List FsEvent) :=
  if vectors.isEmpty then .ok []
  else
    match lookupConfig configs collection with
    | none => .error (.collectionNotFound collection)
    | some config =>
      match vectors.find? (fun v => v.data.length != config.dimension) with
      | some v => .error (.invalidDimension config.dimension v.data.length)
      | none =>
        .ok (batchInsertTrace collection vectors ++
          (if collection ∈ indexes then
            vectors.map (fun v => .indexInsert collection v.id)
          else []))

/-- C10.  `batch_insert` with an empty vector list returns success
immediately, performing no WAL append and no state change at all, for
*every* collection name — including names with no collection, where a
non-empty batch would fail with `CollectionNotFound`. -/
theorem vectorstore_empty_batch (configs : List (ByteStr × CollectionConfig))
    (indexes : List ByteStr) (collection : ByteStr) :
    vsBatchInsert configs indexes collection [] = .ok [] ∧
      (lookupConfig configs collection = none → ∀ v,
        vsBatchInsert configs indexes collection [v]
          = .error (.collectionNotFound collection)) := by
  refine ⟨rfl, fun h v => ?_⟩
  simp [vsBatchInsert, h]

theorem vectorstore_empty_batch_witness :
    vsBatchInsert [] [] [99] [] = Except.ok [] ∧
      (lookupConfig [] [99] = none → ∀ v,
        vsBatchInsert [] [] [99] [v]
          = .error (.collectionNotFound [99])) :=
  vectorstore_empty_batch [] [] [99]

/-! ## Claims C1, C2, C6, C7: the HNSW index
(`index/src/hnsw.rs`, `index/src/node.rs`)

Vector components and distances live in an abstract linearly ordered
scalar type `α`, an exact model of the stored `f32` values: the index
operations consume them only through the distance function `d` — a
parameter modelling `self.distance` dispatching on the immutable
`distance_metric` field — and through order comparisons (the idealisation
assumes no NaN, matching the total `Ord` the source builds with
`partial_cmp(..).unwrap_or(Equal)`).  Concrete runs instantiate `α := ℤ`
with the Manhattan kernel from `common/src/simd.rs`, on integer-valued
inputs whose `f32` arithmetic is exact.  The random `select_layer` draw is the
explicit `layer` argument of `insert`.  `BinaryHeap` is modelled by a list
with min/max extraction; among equal distances Rust's heap order is
unspecified and the model takes the earliest pushed element (the concrete
inputs below have pairwise distinct distances). -/

namespace Hnsw

variable {α : Type} [LinearOrder α]

/-- VectorId models `Uuid`. -/
abbrev VectorId := ℕ

/-- Model of `index/src/node.rs` `HnswNode`. -/
structure HnswNode (α : Type) where
  id : VectorId
  vector : List α
  metadata : Option (List (ByteStr × JsonVal))
  layer : ℕ
  connections : List (List VectorId)
deriving DecidableEq

/-- `HnswNode::new` (node.rs lines 16-34): one empty adjacency list per
layer `0..=max_layer`. -/
def HnswNode.new (id : VectorId) (vector : List α)
    (metadata : Option (List (ByteStr × JsonVal))) (maxLayer : ℕ) :
    HnswNode α :=
  { id := id, vector := vector, metadata := metadata, layer := maxLayer,
    connections := List.replicate (maxLayer + 1) [] }

/-- `HnswNode::get_connections` (node.rs lines 57-63): empty out of
range. -/
def HnswNode.getConnections (n : HnswNode α) (layer : ℕ) : List VectorId :=
  n.connections.getD layer []

/-- `HnswNode::connection_count` (node.rs lines 66-72). -/
def HnswNode.connectionCount (n : HnswNode α) (layer : ℕ) : ℕ :=
  (n.getConnections layer).length

/-- `HnswNode::add_connection` (node.rs lines 37-43): in range and not
already present, push at the end; otherwise a no-op. -/
def HnswNode.addConnection (n : HnswNode α) (layer : ℕ)
    (neighborId : VectorId) : HnswNode α :=
  if layer < n.connections.length then
    if neighborId ∈ n.connections.getD layer [] then n
    else { n with connections :=
      n.connections.set layer (n.connections.getD layer [] ++ [neighborId]) }
  else n

/-- `HnswNode::remove_connection` (node.rs lines 46-54): removes the first
occurrence at the layer, if any. -/
def HnswNode.removeConnection (n : HnswNode α) (layer : ℕ)
    (neighborId : VectorId) : HnswNode α :=
  if layer < n.connections.length then
    { n with connections :=
      n.connections.set layer ((n.connections.getD layer []).erase neighborId) }
  else n

/-- Direct index assignment `neighbor_node.connections[lc] = v`
(hnsw.rs line 231); the index is in range whenever that line is reached
(the connection count at `lc` was positive). -/
def HnswNode.setConnections (n : HnswNode α) (layer : ℕ) (v : List VectorId) :
    HnswNode α :=
  if layer < n.connections.length then
    { n with connections := n.connections.set layer v }
  else n

/-- Association-list model of the `HashMap<VectorId, HnswNode>` node
table. -/
abbrev NodesMap (α : Type) := List (VectorId × HnswNode α)

def lookupN : NodesMap α → VectorId → Option (HnswNode α)
  | [], _ => none
  | (k, v) :: rest, id => if k = id then some v else lookupN rest id

/-- `HashMap::insert`: replace the mapping if the key is present, else add
it. -/
def insertN (nodes : NodesMap α) (id : VectorId) (n : HnswNode α) : NodesMap α :=
  if (lookupN nodes id).isSome then
    nodes.map (fun p => if p.1 = id then (id, n) else p)
  else nodes ++ [(id, n)]

/-- `HashMap::get_mut` followed by in-place mutation: update the mapping,
no-op when the key is absent. -/
def updateN (nodes : NodesMap α) (id : VectorId) (n : HnswNode α) : NodesMap α :=
  nodes.map (fun p => if p.1 = id then (id, n) else p)

/-- `HashMap::remove`. -/
def removeN (nodes : NodesMap α) (id : VectorId) : NodesMap α :=
  nodes.filter (fun p => p.1 != id)

/-- `SearchCandidate` (node.rs lines 112-131): ordered by distance. -/
structure SearchCandidate (α : Type) where
  id : VectorId
  distance : α
deriving DecidableEq

/-- The maximal-distance element (`BinaryHeap::peek` of the max-heap);
among equal distances the earliest element. -/
def maxCand : List (SearchCandidate α) → Option (SearchCandidate α)
  | [] => none
  | c :: rest =>
    match maxCand rest with
    | none => some c
    | some m => if m.distance > c.distance then some m else some c

/-- The minimal-distance element (`BinaryHeap::pop` of the min-heap via
`NearestCandidate`'s reversed ordering); among equal distances the
earliest element. -/
def minCand : List (SearchCandidate α) → Option (SearchCandidate α)
  | [] => none
  | c :: rest =>
    match minCand rest with
    | none => some c
    | some m => if m.distance < c.distance then some m else some c

def popMin (l : List (SearchCandidate α)) :
    Option (SearchCandidate α × List (SearchCandidate α)) :=
  match minCand l with
  | none => none
  | some m => some (m, l.erase m)

/-- `candidates.pop()` on the max-heap: drop one maximal element. -/
def popMaxRemove (l : List (SearchCandidate α)) : List (SearchCandidate α) :=
  match maxCand l with
  | none => l
  | some m => l.erase m

/-- State of one `search_layer` run. -/
structure SLState (α : Type) where
  visited : List VectorId
  candidates : List (SearchCandidate α)
  dynamicList : List (SearchCandidate α)
deriving DecidableEq

/-- One neighbor-exploration step of `search_layer`'s inner `for` loop
(hnsw.rs lines 89-123): skip if visited, mark visited, skip if not in the
table, admit if the candidate heap has room or the distance beats the
current worst, evicting the worst when over `num_closest`. -/
def exploreNeighbor (d : List α → List α → α) (nodes : NodesMap α)
    (query : List α) (numClosest : ℕ) (st : SLState α)
    (neighborId : VectorId) : SLState α :=
  if neighborId ∈ st.visited then st
  else
    let st1 := { st with visited := st.visited ++ [neighborId] }
    match lookupN nodes neighborId with
    | none => st1
    | some neighborNode =>
      let dist := d query neighborNode.vector
      let shouldAdd :=
        if st1.candidates.length < numClosest then true
        else
          match maxCand st1.candidates with
          | some worst => decide (dist < worst.distance)
          | none => false
      if shouldAdd then
        let cand2 := st1.candidates ++ [⟨neighborId, dist⟩]
        { visited := st1.visited,
          candidates :=
            if cand2.length > numClosest then popMaxRemove cand2 else cand2,
          dynamicList := st1.dynamicList ++ [⟨neighborId, dist⟩] }
      else st1

/-- The `while let Some(current) = dynamic_list.pop()` loop of
`search_layer` (hnsw.rs lines 79-125).  The fuel dominates the iteration
count: each iteration pops one element of the dynamic list, and at most
`entry_points.len() + nodes.len()` elements are ever pushed (each push is
guarded by the visited set). -/
def searchLayerGo (d : List α → List α → α) (nodes : NodesMap α)
    (query : List α) (numClosest layer : ℕ) : ℕ → SLState α → SLState α
  | 0, st => st
  | fuel + 1, st =>
    match popMin st.dynamicList with
    | none => st
    | some (current, dynRest) =>
      let stop :=
        match maxCand st.candidates with
        | some worst =>
            decide (current.distance > worst.distance) &&
              decide (st.candidates.length ≥ numClosest)
        | none => false
      if stop then st
      else
        let st1 := { st with dynamicList := dynRest }
        let st2 :=
          match lookupN nodes current.id with
          | none => st1
          | some currentNode =>
            (currentNode.getConnections layer).foldl
              (exploreNeighbor d nodes query numClosest) st1
        searchLayerGo d nodes query numClosest layer fuel st2

/-- Insertion into a list sorted by ascending distance (model of
`into_sorted_vec`). -/
def insertSorted (c : SearchCandidate α) :
    List (SearchCandidate α) → List (SearchCandidate α)
  | [] => [c]
  | x :: rest =>
    if c.distance < x.distance then c :: x :: rest
    else x :: insertSorted c rest

def sortByDist : List (SearchCandidate α) → List (SearchCandidate α)
  | [] => []
  | c :: rest => insertSorted c (sortByDist rest)

/-- Model of `HnswIndex::search_layer` (hnsw.rs lines 51-133).  Entry
points found in the table are seeded unconditionally (lines 64-77); the
loop explores neighbors; finally the candidates are converted with
`into_sorted_vec()` (ascending distance by `SearchCandidate`'s order),
**reversed** — so the returned list is farthest-first; the comment
`// Min distance first` at line 129 does not match `into_sorted_vec`'s
ascending order — and truncated to `num_closest`. -/
def searchLayer (d : List α → List α → α) (nodes : NodesMap α)
    (query : List α) (entryPoints : List VectorId) (numClosest layer : ℕ) :
    List (SearchCandidate α) :=
  let st0 := entryPoints.foldl
    (fun st entryId =>
      match lookupN nodes entryId with
      | some entryNode =>
        let dist := d query entryNode.vector
        { visited := st.visited ++ [entryId],
          candidates := st.candidates ++ [⟨entryId, dist⟩],
          dynamicList := st.dynamicList ++ [⟨entryId, dist⟩] }
      | none => st)
    ⟨[], [], []⟩
  let fin := searchLayerGo d nodes query numClosest layer
    (entryPoints.length + nodes.length + 1) st0
  ((sortByDist fin.candidates).reverse).take numClosest

/-- `HnswIndex::select_neighbors` (hnsw.rs lines 136-144): the first `m`
candidates in the order `search_layer` returned them. -/
def selectNeighbors (candidates : List (SearchCandidate α)) (m : ℕ) :
    List VectorId :=
  if candidates.length ≤ m then candidates.map (fun c => c.id)
  else (candidates.take m).map (fun c => c.id)

/-- `HnswIndex::get_m_values` (hnsw.rs lines 147-153). -/
def getMValues (config : IndexConfig) (layer : ℕ) : ℕ × ℕ :=
  if layer = 0 then (config.maxConnections, config.maxConnections * 2)
  else (config.maxConnections, config.maxConnections)

/-- The greedy descent `for lc in (lo+1..=top).rev()` used by `insert`
(hnsw.rs lines 187-193, `lo = layer`) and `search` (lines 271-275,
`lo = 0`), carrying one current-closest set with `num_closest = 1`. -/
def greedyDown (d : List α → List α → α) (nodes : NodesMap α)
    (query : List α) (lo : ℕ) : ℕ → List VectorId → List VectorId
  | 0, cur => cur
  | lc + 1, cur =>
    if lc + 1 ≤ lo then cur
    else greedyDown d nodes query lo lc
      ((searchLayer d nodes query cur 1 (lc + 1)).map (fun c => c.id))

/-- The reverse-edge and pruning step for one selected neighbor
(hnsw.rs lines 213-234): add the reverse connection, and if the neighbor's
degree at `lc` now exceeds `max_m`, re-select its connections from
`search_layer(neighbor.vector, &[id], max_m + 1, lc)` — seeded with the id
of the node being inserted, which is **not yet in the node table**
(`nodes.insert(id, new_node)` only happens at hnsw.rs line 245). -/
def connectNeighbor (d : List α → List α → α) (id : VectorId)
    (lc maxM : ℕ) (nodes : NodesMap α) (neighborId : VectorId) : NodesMap α :=
  match lookupN nodes neighborId with
  | none => nodes
  | some neighborNode =>
    let nb1 := neighborNode.addConnection lc id
    let nodes1 := updateN nodes neighborId nb1
    if nb1.connectionCount lc > maxM then
      let neighborCandidates :=
        searchLayer d nodes1 nb1.vector [id] (maxM + 1) lc
      updateN nodes1 neighborId
        (nb1.setConnections lc (selectNeighbors neighborCandidates maxM))
    else nodes1

/-- The `for &neighbor_id in &selected` loop (hnsw.rs lines 210-235),
threading the new node being built and the node table. -/
def connectSelected (d : List α → List α → α) (id : VectorId)
    (lc maxM : ℕ) :
    List VectorId → HnswNode α → NodesMap α → HnswNode α × NodesMap α
  | [], newNode, nodes => (newNode, nodes)
  | neighborId :: rest, newNode, nodes =>
    connectSelected d id lc maxM rest (newNode.addConnection lc neighborId)
      (connectNeighbor d id lc maxM nodes neighborId)

/-- The `for lc in (0..=layer).rev()` connection loop of `insert`
(hnsw.rs lines 196-238). -/
def insertDown (d : List α → List α → α) (config : IndexConfig)
    (id : VectorId) (vector : List α) :
    ℕ → HnswNode α → NodesMap α → List VectorId → HnswNode α × NodesMap α
  | lc, newNode, nodes, currentClosest =>
    let ef := if lc = 0 then max config.efConstruction config.maxConnections
      else config.efConstruction
    let candidates := searchLayer d nodes vector currentClosest ef lc
    let mm := getMValues config lc
    let selected := selectNeighbors candidates mm.1
    let res := connectSelected d id lc mm.2 selected newNode nodes
    match lc with
    | 0 => res
    | lc1 + 1 => insertDown d config id vector lc1 res.1 res.2 selected

/-- HNSW index state: the node table and the entry point.  The config,
distance metric and dimension are immutable index fields, passed to the
operations as parameters. -/
structure HnswState (α : Type) where
  nodes : NodesMap α
  entryPoint : Option VectorId
deriving DecidableEq

/-- Model of `HnswIndex::insert` (hnsw.rs lines 157-247).  `layer` is the
result of the random `select_layer` draw (a value in `0..=max_layer`).
The source unwraps the entry node's table entry (line 184); a state whose
entry point is missing from the table makes the source panic, modelled as
an internal error. -/
def insert (d : List α → List α → α) (config : IndexConfig)
    (dimension : ℕ) (s : HnswState α) (id : VectorId) (vector : List α)
    (metadata : Option (List (ByteStr × JsonVal))) (layer : ℕ) :
    Except VectorDbError (HnswState α) :=
  if vector.length ≠ dimension then
    .error (.invalidDimension dimension vector.length)
  else
    let newNode := HnswNode.new id vector metadata layer
    match s.entryPoint with
    | none =>
      .ok { nodes := insertN s.nodes id newNode, entryPoint := some id }
    | some entryId =>
      match lookupN s.nodes entryId with
      | none => .error .internal
      | some entryNode =>
        let currentClosest :=
          greedyDown d s.nodes vector layer entryNode.layer [entryId]
        let res :=
          insertDown d config id vector layer newNode s.nodes currentClosest
        Except.ok
          ⟨insertN res.2 id res.1,
            if layer > entryNode.layer then some id else s.entryPoint⟩

/-- Strip all references to `id` from every layer of `n` (the loop at
hnsw.rs lines 308-312 with `HnswNode::remove_connection`, which removes
the first occurrence at each layer). -/
def stripConnections (n : HnswNode α) (id : VectorId) : HnswNode α :=
  { n with connections := n.connections.map (fun l => l.erase id) }

/-- `max_by_key(|(_, node)| node.layer)` over the surviving nodes
(hnsw.rs lines 317-320): an entry attaining the maximal layer (Rust's
`max_by_key` returns the last maximum in iteration order; HashMap order is
arbitrary, the model uses list order). -/
def maxLayerEntry (nodes : NodesMap α) : Option VectorId :=
  (nodes.foldl
    (fun acc p =>
      match acc with
      | none => some p
      | some q => if p.2.layer ≥ q.2.layer then some p else acc)
    none).map (fun p => p.1)

/-- Model of `HnswIndex::delete` (hnsw.rs lines 298-325). -/
def delete (s : HnswState α) (id : VectorId) : Bool × HnswState α :=
  match lookupN s.nodes id with
  | none => (false, s)
  | some _ =>
    let nodes1 :=
      (removeN s.nodes id).map (fun p => (p.1, stripConnections p.2 id))
    (true,
      { nodes := nodes1,
        entryPoint :=
          if s.entryPoint = some id then maxLayerEntry nodes1
          else s.entryPoint })

/-- `SearchResult` (index/src/lib.rs lines 11-16). -/
structure SearchResult (α : Type) where
  id : VectorId
  distance : α
  metadata : Option (List (ByteStr × JsonVal))
deriving DecidableEq

/-- Model of `HnswIndex::search` (hnsw.rs lines 249-296). -/
def search (d : List α → List α → α) (config : IndexConfig)
    (dimension : ℕ) (s : HnswState α) (query : List α) (limit : ℕ)
    (ef : Option ℕ) : Except VectorDbError (List (SearchResult α)) :=
  if query.length ≠ dimension then
    .error (.invalidDimension dimension query.length)
  else
    match s.entryPoint with
    | none => .ok []
    | some entryId =>
      match lookupN s.nodes entryId with
      | none => .error .internal
      | some entryNode =>
        let currentClosest :=
          greedyDown d s.nodes query 0 entryNode.layer [entryId]
        let candidates := searchLayer d s.nodes query currentClosest
          (max (ef.getD config.efSearch) limit) 0
        .ok ((candidates.take limit).filterMap (fun c =>
          match lookupN s.nodes c.id with
          | some node => some ⟨c.id, c.distance, node.metadata⟩
          | none => none))

/-- One insert command: the arguments of `insert` plus the `select_layer`
draw. -/
structure InsertCmd (α : Type) where
  id : VectorId
  vector : List α
  metadata : Option (List (ByteStr × JsonVal))
  layer : ℕ
deriving DecidableEq

/-- Fold a sequence of inserts from the empty index; a rejected insert
(dimension mismatch, or the panic path) leaves the state unchanged. -/
def runInserts (d : List α → List α → α) (config : IndexConfig)
    (dimension : ℕ) (cmds : List (InsertCmd α)) : HnswState α :=
  cmds.foldl
    (fun s c =>
      match insert d config dimension s c.id c.vector c.metadata c.layer with
      | .ok s1 => s1
      | .error _ => s)
    ⟨[], none⟩

/-- Model of `f32::abs` on the exact integer-valued inputs used in the
concrete runs. -/
def intAbs (q : ℤ) : ℤ := if q < 0 then -q else q

/-- `manhattan_distance` (common/src/simd.rs lines 37-44, selected by
`DistanceMetric::Manhattan` in distance.rs line 12) over the exact integer
model of the `f32` inputs used below. -/
def manhattanDistance (a b : List ℤ) : ℤ :=
  ((a.zip b).map (fun p => intAbs (p.1 - p.2))).sum

/-- The DotProduct distance (distance.rs line 11): the negated
`dot_product` of simd.rs lines 5-12. -/
def dotProductDistance (a b : List ℤ) : ℤ :=
  -((a.zip b).map (fun p => p.1 * p.2)).sum

end Hnsw

namespace Hnsw

variable {α : Type} [LinearOrder α]

/-- Adjacency symmetry among live nodes, as claim C2 states it: if A's
connection list at layer `l` contains B's id, then B's connection list at
layer `l` contains A's id (for A, B both in the node table). -/
def SymmetricAdj (s : HnswState α) : Prop :=
  ∀ a na b nb l, lookupN s.nodes a = some na →
    lookupN s.nodes b = some nb →
    b ∈ na.getConnections l → a ∈ nb.getConnections l

theorem lookupN_mem {nodes : NodesMap α} {k : VectorId} {v : HnswNode α}
    (h : lookupN nodes k = some v) : (k, v) ∈ nodes := by
  induction nodes with
  | nil => exact absurd h (by simp [lookupN])
  | cons p rest ih =>
    rw [lookupN] at h
    by_cases hk : p.1 = k
    · rw [if_pos hk] at h
      injection h with h2
      subst h2
      subst hk
      exact List.mem_cons_self _ _
    · rw [if_neg hk] at h
      exact List.mem_cons_of_mem _ (ih h)

/-- Executable symmetry check, used to discharge `SymmetricAdj` on
concrete states. -/
def symCheck (s : HnswState α) : Bool :=
  s.nodes.all fun p =>
    (List.range p.2.connections.length).all fun l =>
      (p.2.getConnections l).all fun b =>
        match lookupN s.nodes b with
        | some nb => decide (p.1 ∈ nb.getConnections l)
        | none => true

theorem getConnections_oob {n : HnswNode α} {l : ℕ}
    (h : n.connections.length ≤ l) : n.getConnections l = [] := by
  rw [HnswNode.getConnections, List.getD_eq_default]
  exact h

theorem symmetric_of_symCheck {s : HnswState α} (h : symCheck s = true) :
    SymmetricAdj s := by
  intro a na b nb l ha hb hmem
  rw [symCheck, List.all_eq_true] at h
  have h1 := h (a, na) (lookupN_mem ha)
  rw [List.all_eq_true] at h1
  have hlt : l < na.connections.length := by
    by_contra hge
    rw [getConnections_oob (by omega)] at hmem
    exact absurd hmem (List.not_mem_nil b)
  have h2 := h1 l (List.mem_range.mpr hlt)
  rw [List.all_eq_true] at h2
  have h3 := h2 b hmem
  rw [hb] at h3
  exact of_decide_eq_true h3

def c2Config : IndexConfig := ⟨16, 200, 50, 16⟩

/-- The state after two inserts into an empty index with the default
config: id 0 with vector `[0]` drawn at layer 0, then id 1 with vector
`[1]` drawn at layer 1 (both layer draws are possible outcomes of
`select_layer`, whose cap here is `max_layer = 16`). -/
def c2State : HnswState ℤ :=
  runInserts manhattanDistance c2Config 1
    [⟨0, [0], none, 0⟩, ⟨1, [1], none, 1⟩]

/-- C2 (counterexample).  Inserting a node whose drawn layer exceeds a
selected neighbor's top layer records the forward edge in the new node
(`new_node.add_connection(lc, neighbor_id)`, hnsw.rs line 211) while the
reverse `add_connection` on the neighbor silently no-ops because the layer
index is out of range for the neighbor (node.rs line 38).  After the two
inserts, node 1 lists node 0 at layer 1 but node 0 — live — does not list
node 1 there, so the adjacency is not symmetric. -/
theorem hnsw_symmetry_counterexample :
    lookupN c2State.nodes 1 = some ⟨1, [1], none, 1, [[0], [0]]⟩ ∧
      lookupN c2State.nodes 0 = some ⟨0, [0], none, 0, [[1]]⟩ ∧
      ¬ SymmetricAdj c2State := by
  refine ⟨by decide, by decide, fun h => ?_⟩
  have h1 := h 1 ⟨1, [1], none, 1, [[0], [0]]⟩ 0 ⟨0, [0], none, 0, [[1]]⟩ 1
    (by decide) (by decide) (by decide)
  exact absurd h1 (by decide)

theorem lookupN_map_strip (nodes : NodesMap α) (id a : VectorId) :
    lookupN (nodes.map (fun p => (p.1, stripConnections p.2 id))) a
      = (lookupN nodes a).map (fun n => stripConnections n id) := by
  induction nodes with
  | nil => rfl
  | cons p rest ih =>
    by_cases hk : p.1 = a <;> simp [lookupN, hk, ih]

theorem lookupN_removeN_self (nodes : NodesMap α) (id : VectorId) :
    lookupN (removeN nodes id) id = none := by
  induction nodes with
  | nil => rfl
  | cons p rest ih =>
    by_cases hk : p.1 = id
    · rw [removeN, List.filter_cons, if_neg (by simp [hk])]
      exact ih
    · rw [removeN, List.filter_cons, if_pos (by simp [hk]), lookupN,
        if_neg hk]
      exact ih

theorem lookupN_removeN_ne (nodes : NodesMap α) (id a : VectorId)
    (h : a ≠ id) : lookupN (removeN nodes id) a = lookupN nodes a := by
  induction nodes with
  | nil => rfl
  | cons p rest ih =>
    by_cases hk : p.1 = id
    · have hpa : p.1 ≠ a := by rw [hk]; exact fun hc => h hc.symm
      rw [removeN, List.filter_cons, if_neg (by simp [hk]),
        show lookupN (p :: rest) a = lookupN rest a from by
          rw [lookupN, if_neg hpa]]
      exact ih
    · rw [removeN, List.filter_cons, if_pos (by simp [hk]), lookupN, lookupN]
      by_cases hpa : p.1 = a
      · rw [if_pos hpa, if_pos hpa]
      · rw [if_neg hpa, if_neg hpa]
        exact ih

theorem getConnections_strip (n : HnswNode α) (id : VectorId) (l : ℕ) :
    (stripConnections n id).getConnections l
      = (n.getConnections l).erase id := by
  simp only [stripConnections, HnswNode.getConnections]
  rcases Nat.lt_or_ge l n.connections.length with hl | hl
  · rw [List.getD_eq_getElem _ _ (by simpa using hl),
      List.getD_eq_getElem _ _ hl]
    simp
  · rw [List.getD_eq_default _ _ (by simpa using hl),
      List.getD_eq_default _ _ hl]
    rfl

/-- C2 (amended).  Insert does not preserve adjacency symmetry (see the
counterexample); delete does: for every state whose adjacency is symmetric
among live nodes, after `delete(id)` the adjacency is still symmetric
among the surviving live nodes. -/
theorem hnsw_delete_symmetry (s : HnswState α) (id : VectorId)
    (h : SymmetricAdj s) : SymmetricAdj (delete s id).2 := by
  rcases hlook : lookupN s.nodes id with _ | n0
  · rw [delete, hlook]
    exact h
  · rw [delete, hlook]
    intro a na b nb l ha hb hmem
    simp only at ha hb
    rw [lookupN_map_strip] at ha hb
    rcases Option.map_eq_some'.mp ha with ⟨na0, hna0, rfl⟩
    rcases Option.map_eq_some'.mp hb with ⟨nb0, hnb0, rfl⟩
    have hane : a ≠ id := by
      intro hc
      rw [hc, lookupN_removeN_self] at hna0
      exact Option.noConfusion hna0
    have hbne : b ≠ id := by
      intro hc
      rw [hc, lookupN_removeN_self] at hnb0
      exact Option.noConfusion hnb0
    rw [lookupN_removeN_ne _ _ _ hane] at hna0
    rw [lookupN_removeN_ne _ _ _ hbne] at hnb0
    rw [getConnections_strip] at hmem
    rw [getConnections_strip]
    exact (List.mem_erase_of_ne hane).mpr
      (h a na0 b nb0 l hna0 hnb0 (List.mem_of_mem_erase hmem))

/-- A concrete two-node symmetric state. -/
def c2SymState : HnswState ℤ :=
  ⟨[(0, ⟨0, [], none, 0, [[1]]⟩), (1, ⟨1, [], none, 0, [[0]]⟩)], some 0⟩

theorem hnsw_delete_symmetry_witness :
    SymmetricAdj c2SymState ∧ SymmetricAdj (delete c2SymState 0).2 :=
  ⟨symmetric_of_symCheck (by decide),
    hnsw_delete_symmetry c2SymState 0 (symmetric_of_symCheck (by decide))⟩

def c1Config : IndexConfig := ⟨1, 1, 50, 16⟩

/-- Inserts whose fourth call makes node 0's layer-0 degree reach 3,
exceeding the layer-0 cap `max_m = 2·max_connections = 2` (distances from
id 3's vector `[1]`: 1 to id 0, 3 to id 1, 5 to id 2 — all exact in
`f32`). -/
def c1Cmds : List (InsertCmd ℤ) :=
  [⟨0, [0], none, 0⟩, ⟨1, [4], none, 0⟩, ⟨2, [-4], none, 0⟩,
   ⟨3, [1], none, 0⟩]

/-- C1 (the code at the failing input).  When inserting id 3 the selected
neighbor 0 reaches degree 3 > 2 at layer 0 and is "pruned": the re-search
`search_layer(&neighbor_vector, &[id], max_m + 1, lc)` (hnsw.rs lines
221-226) is seeded only with id 3, which is not yet in the node table, so
it returns no candidates and node 0's layer-0 connection list is replaced
by the empty list — not by the `max_m` closest candidates (the claim's
amended expectation would keep 2 of its 3 neighbors closest to it, ids 3
and 1 at distances 1 and 4). -/
theorem hnsw_prune_wipes_neighbor :
    lookupN (runInserts manhattanDistance c1Config 1 c1Cmds).nodes 0
        = some ⟨0, [0], none, 0, [[]]⟩ ∧
      lookupN (runInserts manhattanDistance c1Config 1 c1Cmds).nodes 1
        = some ⟨1, [4], none, 0, [[0]]⟩ ∧
      lookupN (runInserts manhattanDistance c1Config 1 c1Cmds).nodes 3
        = some ⟨3, [1], none, 0, [[0]]⟩ := by
  refine ⟨by decide, by decide, by decide⟩

end Hnsw

namespace Hnsw

variable {α : Type} [LinearOrder α]

/-- Length of a node's connection list at a layer. -/
def connLen (n : HnswNode α) (l : ℕ) : ℕ := (n.getConnections l).length

/-- The per-layer degree cap of claim C6: `2·M` at layer 0 and `M` above
(the `max_m` of `get_m_values`). -/
def capAt (config : IndexConfig) (l : ℕ) : ℕ :=
  if l = 0 then config.maxConnections * 2 else config.maxConnections

/-- All of a node's connection lists are within the cap. -/
def CapOK (config : IndexConfig) (n : HnswNode α) : Prop :=
  ∀ l, connLen n l ≤ capAt config l

/-- All nodes of the table are within the cap. -/
def StateCap (config : IndexConfig) (s : HnswState α) : Prop :=
  ∀ p ∈ s.nodes, CapOK config p.2

theorem getD_set_ne {β : Type} (xs : List β) (i j : ℕ) (v d : β)
    (h : i ≠ j) : (xs.set i v).getD j d = xs.getD j d := by
  rw [List.getD_eq_getElem?_getD, List.getD_eq_getElem?_getD,
    List.getElem?_set_ne h]

theorem getD_set_self {β : Type} (xs : List β) (i : ℕ) (v d : β)
    (h : i < xs.length) : (xs.set i v).getD i d = v := by
  rw [List.getD_eq_getElem?_getD, List.getElem?_set_self]
  · rfl
  · exact h

theorem connLen_new (id : VectorId) (v : List α)
    (md : Option (List (ByteStr × JsonVal))) (layer l : ℕ) :
    connLen (HnswNode.new id v md layer) l = 0 := by
  simp only [connLen, HnswNode.new, HnswNode.getConnections]
  rcases Nat.lt_or_ge l (layer + 1) with hl | hl
  · rw [List.getD_eq_getElem _ _ (by simpa using hl)]
    simp
  · rw [List.getD_eq_default _ _ (by simpa using hl)]
    rfl

theorem connLen_addConnection_ne (n : HnswNode α) (lc : ℕ) (b : VectorId)
    (l : ℕ) (h : l ≠ lc) :
    connLen (n.addConnection lc b) l = connLen n l := by
  rw [HnswNode.addConnection]
  by_cases h1 : lc < n.connections.length
  · rw [if_pos h1]
    by_cases h2 : b ∈ n.connections.getD lc []
    · rw [if_pos h2]
    · rw [if_neg h2]
      simp only [connLen, HnswNode.getConnections]
      rw [getD_set_ne _ _ _ _ _ (fun hc => h hc.symm)]
  · rw [if_neg h1]

theorem connLen_addConnection_le (n : HnswNode α) (lc : ℕ) (b : VectorId) :
    connLen (n.addConnection lc b) lc ≤ connLen n lc + 1 := by
  rw [HnswNode.addConnection]
  by_cases h1 : lc < n.connections.length
  · rw [if_pos h1]
    by_cases h2 : b ∈ n.connections.getD lc []
    · rw [if_pos h2]
      omega
    · rw [if_neg h2]
      simp only [connLen, HnswNode.getConnections]
      rw [getD_set_self _ _ _ _ h1]
      simp
  · rw [if_neg h1]
    omega

theorem connLen_setConnections_ne (n : HnswNode α) (lc : ℕ)
    (v : List VectorId) (l : ℕ) (h : l ≠ lc) :
    connLen (n.setConnections lc v) l = connLen n l := by
  rw [HnswNode.setConnections]
  by_cases h1 : lc < n.connections.length
  · rw [if_pos h1]
    simp only [connLen, HnswNode.getConnections]
    rw [getD_set_ne _ _ _ _ _ (fun hc => h hc.symm)]
  · rw [if_neg h1]

theorem connLen_setConnections_self (n : HnswNode α) (lc : ℕ)
    (v : List VectorId) (h : lc < n.connections.length) :
    connLen (n.setConnections lc v) lc = v.length := by
  rw [HnswNode.setConnections, if_pos h]
  simp only [connLen, HnswNode.getConnections]
  rw [getD_set_self _ _ _ _ h]

theorem selectNeighbors_length (cands : List (SearchCandidate α)) (m : ℕ) :
    (selectNeighbors cands m).length ≤ m := by
  rw [selectNeighbors]
  by_cases h : cands.length ≤ m
  · rw [if_pos h]
    simpa using h
  · rw [if_neg h]
    simp

theorem mem_updateN {nodes : NodesMap α} {k : VectorId} {v : HnswNode α}
    {p : VectorId × HnswNode α} (h : p ∈ updateN nodes k v) :
    p = (k, v) ∨ (p ∈ nodes ∧ p.1 ≠ k) := by
  rw [updateN] at h
  rcases List.mem_map.mp h with ⟨q, hq, rfl⟩
  by_cases hk : q.1 = k
  · left
    rw [if_pos hk]
  · right
    rw [if_neg hk]
    exact ⟨hq, hk⟩

theorem mem_insertN {nodes : NodesMap α} {k : VectorId} {v : HnswNode α}
    {p : VectorId × HnswNode α} (h : p ∈ insertN nodes k v) :
    p = (k, v) ∨ p ∈ nodes := by
  rw [insertN] at h
  split at h
  · rcases List.mem_map.mp h with ⟨q, hq, rfl⟩
    by_cases hk : q.1 = k
    · left
      rw [if_pos hk]
    · right
      rw [if_neg hk]
      exact hq
  · rcases List.mem_append.mp h with h1 | h1
    · right
      exact h1
    · left
      simpa using h1

theorem connectionCount_eq_connLen (n : HnswNode α) (l : ℕ) :
    n.connectionCount l = connLen n l := rfl

theorem capok_snd {config : IndexConfig} {k : VectorId} {x : HnswNode α}
    (h : CapOK config x) :
    CapOK config ((k, x) : VectorId × HnswNode α).2 := h

/-- The reverse-edge step keeps every node of the table within the cap:
either the neighbor was not over `max_m` after the added edge, or its list
was replaced by at most `max_m` re-selected connections. -/
theorem connectNeighbor_cap (d : List α → List α → α) (config : IndexConfig)
    (id : VectorId) (lc : ℕ) (nodes : NodesMap α) (nbId : VectorId)
    (hcap : ∀ p ∈ nodes, CapOK config p.2) :
    ∀ p ∈ connectNeighbor d id lc (capAt config lc) nodes nbId,
      CapOK config p.2 := by
  rcases hlook : lookupN nodes nbId with _ | nb
  · simp only [connectNeighbor, hlook]
    exact hcap
  · simp only [connectNeighbor, hlook]
    have hnb : CapOK config nb := hcap (nbId, nb) (lookupN_mem hlook)
    have hnb1ne : ∀ l, l ≠ lc →
        connLen (nb.addConnection lc id) l ≤ capAt config l := by
      intro l hl
      rw [connLen_addConnection_ne _ _ _ _ hl]
      exact hnb l
    by_cases hcnt :
      (nb.addConnection lc id).connectionCount lc > capAt config lc
    · rw [if_pos hcnt]
      intro p hp
      rcases mem_updateN hp with rfl | ⟨hp1, hne⟩
      · apply capok_snd
        intro l
        by_cases hl : l = lc
        · rw [hl]
          have hlt : lc < (nb.addConnection lc id).connections.length := by
            by_contra hge
            rw [connectionCount_eq_connLen, connLen,
              getConnections_oob (by omega)] at hcnt
            simp at hcnt
          rw [connLen_setConnections_self _ _ _ hlt]
          exact selectNeighbors_length _ _
        · rw [connLen_setConnections_ne _ _ _ _ hl]
          exact hnb1ne l hl
      · rcases mem_updateN hp1 with rfl | ⟨hp2, _⟩
        · exact absurd rfl hne
        · exact hcap _ hp2
    · rw [if_neg hcnt]
      intro p hp
      rcases mem_updateN hp with rfl | ⟨hp1, _⟩
      · apply capok_snd
        intro l
        by_cases hl : l = lc
        · rw [hl]
          rw [connectionCount_eq_connLen] at hcnt
          omega
        · exact hnb1ne l hl
      · exact hcap _ hp1

theorem connectSelected_cap (d : List α → List α → α) (config : IndexConfig)
    (id : VectorId) (lc : ℕ) (sel : List VectorId) (node : HnswNode α)
    (nodes : NodesMap α) (hcap : ∀ p ∈ nodes, CapOK config p.2) :
    ∀ p ∈ (connectSelected d id lc (capAt config lc) sel node nodes).2,
      CapOK config p.2 := by
  induction sel generalizing node nodes with
  | nil => exact hcap
  | cons b rest ih =>
    rw [connectSelected]
    exact ih _ _ (connectNeighbor_cap d config id lc nodes b hcap)

theorem connectSelected_node_ne (d : List α → List α → α) (id : VectorId)
    (lc maxM : ℕ) (sel : List VectorId) (node : HnswNode α)
    (nodes : NodesMap α) (l : ℕ) (h : l ≠ lc) :
    connLen (connectSelected d id lc maxM sel node nodes).1 l
      = connLen node l := by
  induction sel generalizing node nodes with
  | nil => rfl
  | cons b rest ih =>
    rw [connectSelected]
    exact (ih _ _).trans (connLen_addConnection_ne node lc b l h)

theorem connectSelected_node_le (d : List α → List α → α) (id : VectorId)
    (lc maxM : ℕ) (sel : List VectorId) (node : HnswNode α)
    (nodes : NodesMap α) :
    connLen (connectSelected d id lc maxM sel node nodes).1 lc
      ≤ connLen node lc + sel.length := by
  induction sel generalizing node nodes with
  | nil => simp [connectSelected]
  | cons b rest ih =>
    rw [connectSelected]
    have h1 := ih (node.addConnection lc b)
      (connectNeighbor d id lc maxM nodes b)
    have h2 := connLen_addConnection_le node lc b
    simp only [List.length_cons]
    omega

theorem insertDown_zero (d : List α → List α → α) (config : IndexConfig)
    (id : VectorId) (vec : List α) (node : HnswNode α) (nodes : NodesMap α)
    (cur : List VectorId) :
    insertDown d config id vec 0 node nodes cur
      = connectSelected d id 0 (config.maxConnections * 2)
          (selectNeighbors
            (searchLayer d nodes vec cur
              (max config.efConstruction config.maxConnections) 0)
            config.maxConnections)
          node nodes := rfl

theorem insertDown_succ (d : List α → List α → α) (config : IndexConfig)
    (id : VectorId) (vec : List α) (lc1 : ℕ) (node : HnswNode α)
    (nodes : NodesMap α) (cur : List VectorId) :
    insertDown d config id vec (lc1 + 1) node nodes cur
      = insertDown d config id vec lc1
          (connectSelected d id (lc1 + 1) config.maxConnections
            (selectNeighbors
              (searchLayer d nodes vec cur config.efConstruction (lc1 + 1))
              config.maxConnections)
            node nodes).1
          (connectSelected d id (lc1 + 1) config.maxConnections
            (selectNeighbors
              (searchLayer d nodes vec cur config.efConstruction (lc1 + 1))
              config.maxConnections)
            node nodes).2
          (selectNeighbors
            (searchLayer d nodes vec cur config.efConstruction (lc1 + 1))
            config.maxConnections) := rfl

theorem insertDown_cap (d : List α → List α → α) (config : IndexConfig)
    (id : VectorId) (vec : List α) :
    ∀ (lc : ℕ) (node : HnswNode α) (nodes : NodesMap α)
      (cur : List VectorId),
      (∀ p ∈ nodes, CapOK config p.2) →
      (∀ l, l ≤ lc → connLen node l = 0) →
      (∀ l, connLen node l ≤ config.maxConnections) →
      (∀ p ∈ (insertDown d config id vec lc node nodes cur).2,
        CapOK config p.2) ∧
        (∀ l, connLen (insertDown d config id vec lc node nodes cur).1 l
          ≤ config.maxConnections) := by
  intro lc
  induction lc with
  | zero =>
    intro node nodes cur hcap h0 hM
    rw [insertDown_zero]
    constructor
    · exact connectSelected_cap d config id 0 _ node nodes hcap
    · intro l
      by_cases hl : l = 0
      · subst hl
        have h1 := connectSelected_node_le d id 0
          (config.maxConnections * 2)
          (selectNeighbors
            (searchLayer d nodes vec cur
              (max config.efConstruction config.maxConnections) 0)
            config.maxConnections)
          node nodes
        have h2 := selectNeighbors_length
          (searchLayer d nodes vec cur
            (max config.efConstruction config.maxConnections) 0)
          config.maxConnections
        have h3 := h0 0 (Nat.le_refl 0)
        omega
      · rw [connectSelected_node_ne d id 0 _ _ node nodes l hl]
        exact hM l
  | succ lc1 ih =>
    intro node nodes cur hcap h0 hM
    rw [insertDown_succ]
    apply ih
    · exact connectSelected_cap d config id (lc1 + 1) _ node nodes hcap
    · intro l hl
      rw [connectSelected_node_ne d id (lc1 + 1) _ _ node nodes l (by omega)]
      exact h0 l (by omega)
    · intro l
      by_cases hl : l = lc1 + 1
      · rw [hl]
        have h1 := connectSelected_node_le d id (lc1 + 1)
          config.maxConnections
          (selectNeighbors
            (searchLayer d nodes vec cur config.efConstruction (lc1 + 1))
            config.maxConnections)
          node nodes
        have h2 := selectNeighbors_length
          (searchLayer d nodes vec cur config.efConstruction (lc1 + 1))
          config.maxConnections
        have h3 := h0 (lc1 + 1) (Nat.le_refl _)
        omega
      · rw [connectSelected_node_ne d id (lc1 + 1) _ _ node nodes l hl]
        exact hM l

theorem insert_cap (d : List α → List α → α) (config : IndexConfig)
    (dimension : ℕ) (s : HnswState α) (id : VectorId) (vec : List α)
    (md : Option (List (ByteStr × JsonVal))) (layer : ℕ) (r : HnswState α)
    (hcap : StateCap config s)
    (h : insert d config dimension s id vec md layer = .ok r) :
    StateCap config r := by
  rw [insert] at h
  by_cases hdim : vec.length ≠ dimension
  · rw [if_pos hdim] at h
    exact absurd h (by simp)
  · rw [if_neg hdim] at h
    rcases hep : s.entryPoint with _ | entryId
    · simp only [hep] at h
      injection h with h2
      subst h2
      intro p hp
      rcases mem_insertN hp with rfl | hp2
      · apply capok_snd
        intro l
        rw [connLen_new]
        exact Nat.zero_le _
      · exact hcap p hp2
    · rcases hlook : lookupN s.nodes entryId with _ | entryNode
      · simp only [hep, hlook] at h
        exact absurd h (by simp)
      · simp only [hep, hlook] at h
        injection h with h2
        subst h2
        obtain ⟨hnodes, hnode⟩ := insertDown_cap d config id vec layer
          (HnswNode.new id vec md layer) s.nodes
          (greedyDown d s.nodes vec layer entryNode.layer [entryId]) hcap
          (fun l _ => connLen_new id vec md layer l)
          (fun l => by rw [connLen_new]; exact Nat.zero_le _)
        intro p hp
        rcases mem_insertN hp with rfl | hp2
        · apply capok_snd
          intro l
          have h1 := hnode l
          have h2 : config.maxConnections ≤ capAt config l := by
            rw [capAt]
            split <;> omega
          omega
        · exact hnodes p hp2

theorem runInsertsAux_cap (d : List α → List α → α) (config : IndexConfig)
    (dimension : ℕ) (cmds : List (InsertCmd α)) :
    ∀ s : HnswState α, StateCap config s →
      StateCap config (cmds.foldl
        (fun s c =>
          match insert d config dimension s c.id c.vector c.metadata c.layer
            with
          | .ok s1 => s1
          | .error _ => s)
        s) := by
  induction cmds with
  | nil => exact fun s hs => hs
  | cons c rest ih =>
    intro s hs
    rw [List.foldl_cons]
    apply ih
    rcases hins :
      insert d config dimension s c.id c.vector c.metadata c.layer
      with e | s1
    · exact hs
    · exact insert_cap d config dimension s c.id c.vector c.metadata
        c.layer s1 hs hins

theorem runInserts_cap (d : List α → List α → α) (config : IndexConfig)
    (dimension : ℕ) (cmds : List (InsertCmd α)) :
    StateCap config (runInserts d config dimension cmds) := by
  rw [runInserts]
  exact runInsertsAux_cap d config dimension cmds ⟨[], none⟩
    (fun p hp => absurd hp (List.not_mem_nil p))

/-- C6.  After any sequence of inserts on an HNSW index starting from
empty (with any layer draws, any distance function, any config), no
node's connection list at layer 0 has more than `2·max_connections`
entries and none at a layer `l ≥ 1` has more than `max_connections`
entries. -/
theorem hnsw_degree_cap (d : List α → List α → α) (config : IndexConfig)
    (dimension : ℕ) (cmds : List (InsertCmd α)) (id : VectorId)
    (n : HnswNode α)
    (h : lookupN (runInserts d config dimension cmds).nodes id = some n) :
    connLen n 0 ≤ 2 * config.maxConnections ∧
      ∀ l, 1 ≤ l → connLen n l ≤ config.maxConnections := by
  have hcap : CapOK config n :=
    runInserts_cap d config dimension cmds (id, n) (lookupN_mem h)
  constructor
  · have h0 := hcap 0
    rw [capAt, if_pos rfl] at h0
    omega
  · intro l hl
    have h1 := hcap l
    rw [capAt, if_neg (by omega)] at h1
    exact h1

def c6Config : IndexConfig := ⟨16, 200, 50, 16⟩

def c6Cmds : List (InsertCmd ℤ) := [⟨5, [0], none, 0⟩]

theorem hnsw_degree_cap_witness :
    lookupN (runInserts manhattanDistance c6Config 1 c6Cmds).nodes 5
        = some ⟨5, [0], none, 0, [[]]⟩ ∧
      (connLen (⟨5, [0], none, 0, [[]]⟩ : HnswNode ℤ) 0
          ≤ 2 * c6Config.maxConnections ∧
        ∀ l, 1 ≤ l →
          connLen (⟨5, [0], none, 0, [[]]⟩ : HnswNode ℤ) l
            ≤ c6Config.maxConnections) :=
  ⟨by decide,
    hnsw_degree_cap manhattanDistance c6Config 1 c6Cmds 5 _ (by decide)⟩

end Hnsw

namespace Hnsw

variable {α : Type} [LinearOrder α]

/-- Every connection list of every node is duplicate-free (the invariant
maintained by `add_connection`, which refuses to push an id already
present). -/
def NodupConns (s : HnswState α) : Prop :=
  ∀ p ∈ s.nodes, ∀ l ∈ p.2.connections, l.Nodup

instance instDecNodupConns (s : HnswState α) : Decidable (NodupConns s) :=
  List.decidableBAll _ s.nodes

theorem nodup_getConnections {n : HnswNode α}
    (h : ∀ l ∈ n.connections, l.Nodup) (l : ℕ) :
    (n.getConnections l).Nodup := by
  rw [HnswNode.getConnections]
  rcases Nat.lt_or_ge l n.connections.length with hl | hl
  · rw [List.getD_eq_getElem _ _ hl]
    exact h _ (List.getElem_mem hl)
  · rw [List.getD_eq_default _ _ hl]
    exact List.nodup_nil

/-- Any search on a state whose node table does not contain `id` never
returns a result carrying `id` (the final `filter_map` of `search` keeps
only ids that resolve in the node table). -/
theorem search_not_mem (d : List α → List α → α) (config : IndexConfig)
    (dimension : ℕ) (st : HnswState α) (id : VectorId) (query : List α)
    (limit : ℕ) (ef : Option ℕ) (results : List (SearchResult α))
    (hnone : lookupN st.nodes id = none)
    (hs : search d config dimension st query limit ef = .ok results) :
    ∀ r ∈ results, r.id ≠ id := by
  rw [search] at hs
  by_cases hq : query.length ≠ dimension
  · rw [if_pos hq] at hs
    exact absurd hs (by simp)
  · rw [if_neg hq] at hs
    rcases hep : st.entryPoint with _ | eId
    · simp only [hep] at hs
      injection hs with h2
      subst h2
      intro r hr
      exact absurd hr (List.not_mem_nil r)
    · rcases hlk : lookupN st.nodes eId with _ | en
      · simp only [hep, hlk] at hs
        exact absurd hs (by simp)
      · simp only [hep, hlk] at hs
        injection hs with h2
        subst h2
        intro r hr hrid
        rcases List.mem_filterMap.mp hr with ⟨c, hc, hfc⟩
        rcases hcl : lookupN st.nodes c.id with _ | node
        · rw [hcl] at hfc
          exact Option.noConfusion hfc
        · rw [hcl] at hfc
          injection hfc with h3
          subst h3
          have hcid : c.id = id := hrid
          rw [hcid, hnone] at hcl
          exact Option.noConfusion hcl

theorem maxLayerFold_none (nodes : NodesMap α) :
    ∀ acc : Option (VectorId × HnswNode α),
      nodes.foldl
          (fun acc p =>
            match acc with
            | none => some p
            | some q => if p.2.layer ≥ q.2.layer then some p else acc)
          acc = none →
      acc = none ∧ nodes = [] := by
  induction nodes with
  | nil => exact fun acc h => ⟨h, rfl⟩
  | cons p rest ih =>
    intro acc h
    rw [List.foldl_cons] at h
    rcases acc with _ | q0
    · have h1 : List.foldl
          (fun acc p =>
            match acc with
            | none => some p
            | some q => if p.2.layer ≥ q.2.layer then some p else acc)
          (some p) rest = none := h
      exact absurd (ih (some p) h1).1 (by simp)
    · have h1 : List.foldl
          (fun acc p =>
            match acc with
            | none => some p
            | some q => if p.2.layer ≥ q.2.layer then some p else acc)
          (if p.2.layer ≥ q0.2.layer then some p else some q0) rest
          = none := h
      by_cases hge : p.2.layer ≥ q0.2.layer
      · rw [if_pos hge] at h1
        exact absurd (ih _ h1).1 (by simp)
      · rw [if_neg hge] at h1
        exact absurd (ih _ h1).1 (by simp)

theorem maxLayerFold_some (nodes : NodesMap α) :
    ∀ (acc : Option (VectorId × HnswNode α)) (q : VectorId × HnswNode α),
      nodes.foldl
          (fun acc p =>
            match acc with
            | none => some p
            | some q => if p.2.layer ≥ q.2.layer then some p else acc)
          acc = some q →
      (acc = some q ∨ q ∈ nodes) ∧ (∀ p ∈ nodes, p.2.layer ≤ q.2.layer) ∧
        ∀ q0, acc = some q0 → q0.2.layer ≤ q.2.layer := by
  induction nodes with
  | nil =>
    intro acc q h
    refine ⟨Or.inl h, by simp, ?_⟩
    intro q0 h0
    rw [h0] at h
    injection h with h2
    rw [h2]
  | cons p rest ih =>
    intro acc q h
    rw [List.foldl_cons] at h
    rcases acc with _ | q0
    · have h' : List.foldl
          (fun acc p =>
            match acc with
            | none => some p
            | some q => if p.2.layer ≥ q.2.layer then some p else acc)
          (some p) rest = some q := h
      obtain ⟨h1, h2, h3⟩ := ih (some p) q h'
      refine ⟨?_, ?_, ?_⟩
      · rcases h1 with h1 | h1
        · injection h1 with h1
          right
          rw [← h1]
          exact List.mem_cons_self _ _
        · right
          exact List.mem_cons_of_mem _ h1
      · intro p' hp'
        rcases List.mem_cons.mp hp' with rfl | hp'
        · exact h3 p' rfl
        · exact h2 p' hp'
      · intro q0 h0
        exact Option.noConfusion h0
    · have h' : List.foldl
          (fun acc p =>
            match acc with
            | none => some p
            | some q => if p.2.layer ≥ q.2.layer then some p else acc)
          (if p.2.layer ≥ q0.2.layer then some p else some q0) rest
          = some q := h
      by_cases hge : p.2.layer ≥ q0.2.layer
      · rw [if_pos hge] at h'
        obtain ⟨h1, h2, h3⟩ := ih (some p) q h'
        refine ⟨?_, ?_, ?_⟩
        · rcases h1 with h1 | h1
          · injection h1 with h1
            right
            rw [← h1]
            exact List.mem_cons_self _ _
          · right
            exact List.mem_cons_of_mem _ h1
        · intro p' hp'
          rcases List.mem_cons.mp hp' with rfl | hp'
          · exact h3 p' rfl
          · exact h2 p' hp'
        · intro q1 h0
          injection h0 with h0
          have hple := h3 p rfl
          rw [← h0]
          omega
      · rw [if_neg hge] at h'
        obtain ⟨h1, h2, h3⟩ := ih (some q0) q h'
        refine ⟨?_, ?_, ?_⟩
        · rcases h1 with h1 | h1
          · exact Or.inl h1
          · right
            exact List.mem_cons_of_mem _ h1
        · intro p' hp'
          rcases List.mem_cons.mp hp' with rfl | hp'
          · have hq0 := h3 q0 rfl
            omega
          · exact h2 p' hp'
        · exact h3

/-- `max_by_key(|(_, node)| node.layer)` returns an entry of the table
attaining the maximal layer, and `none` exactly on the empty table. -/
theorem maxLayerEntry_spec (nodes : NodesMap α) :
    (nodes = [] ∧ maxLayerEntry nodes = none) ∨
      ∃ e ne, maxLayerEntry nodes = some e ∧ (e, ne) ∈ nodes ∧
        ∀ p ∈ nodes, p.2.layer ≤ ne.layer := by
  rcases hf : nodes.foldl
      (fun acc p =>
        match acc with
        | none => some p
        | some q => if p.2.layer ≥ q.2.layer then some p else acc)
      none with _ | q
  · left
    refine ⟨(maxLayerFold_none nodes none hf).2, ?_⟩
    rw [maxLayerEntry, hf]
    rfl
  · right
    obtain ⟨h1, h2, h3⟩ := maxLayerFold_some nodes none q hf
    rcases h1 with h1 | h1
    · exact absurd h1 (by simp)
    · exact ⟨q.1, q.2, by rw [maxLayerEntry, hf]; rfl, h1, h2⟩

def c7SState : HnswState ℤ :=
  ⟨[(0, ⟨0, [0], none, 0, [[1]]⟩), (1, ⟨1, [1], none, 0, [[0]]⟩)], some 0⟩

def c7DupState : HnswState ℤ :=
  ⟨[(0, ⟨0, [0], none, 0, [[1, 1]]⟩), (1, ⟨1, [1], none, 0, [[0]]⟩)],
    some 0⟩

/-- C7 counterexample.  On a state where node 0 lists the id 1 twice at
layer 0, `delete 1` succeeds but `remove_connection` strips only the
first occurrence, so the surviving node 0 still lists the deleted id 1 —
the claim's "removes id from every surviving node's connection list at
every layer" fails for states with duplicated edges. -/
theorem hnsw_delete_dup_counterexample :
    (delete c7DupState 1).1 = true ∧
      lookupN (delete c7DupState 1).2.nodes 0
        = some ⟨0, [0], none, 0, [[1]]⟩ ∧
      1 ∈ (⟨0, [0], none, 0, [[1]]⟩ : HnswNode ℤ).getConnections 0 := by
  decide

/-- C7 (amended).  `delete id` returns `false` and leaves the state
unchanged when `id` is not in the node table.  When it is present, it
returns `true`, removes the node from the table, strips the first
occurrence of `id` at each layer of each surviving node — so when no
connection list holds `id` twice (the invariant `add_connection`
maintains), `id` is removed from every surviving node's lists — no
subsequent search can return `id`, and if `id` was the entry point the
new entry point is a surviving node of maximal layer (or empty when no
node remains); otherwise the entry point is unchanged. -/
theorem hnsw_delete_spec (s : HnswState α) (id : VectorId) :
    (lookupN s.nodes id = none → delete s id = (false, s)) ∧
    ∀ n, lookupN s.nodes id = some n →
      (delete s id).1 = true ∧
      lookupN (delete s id).2.nodes id = none ∧
      (NodupConns s →
        ∀ p ∈ (delete s id).2.nodes, ∀ l, id ∉ p.2.getConnections l) ∧
      (∀ (d : List α → List α → α) (config : IndexConfig) (dimension : ℕ)
        (query : List α) (limit : ℕ) (ef : Option ℕ)
        (results : List (SearchResult α)),
        search d config dimension (delete s id).2 query limit ef
            = .ok results →
        ∀ r ∈ results, r.id ≠ id) ∧
      (s.entryPoint = some id →
        ((delete s id).2.nodes = [] ∧ (delete s id).2.entryPoint = none) ∨
          ∃ e ne, (delete s id).2.entryPoint = some e ∧
            (e, ne) ∈ (delete s id).2.nodes ∧
            ∀ p ∈ (delete s id).2.nodes, p.2.layer ≤ ne.layer) ∧
      (s.entryPoint ≠ some id →
        (delete s id).2.entryPoint = s.entryPoint) := by
  constructor
  · intro h
    rw [delete, h]
  · intro n h
    have hdel : delete s id =
        (true,
          ⟨(removeN s.nodes id).map
              (fun p => (p.1, stripConnections p.2 id)),
            if s.entryPoint = some id then
              maxLayerEntry ((removeN s.nodes id).map
                (fun p => (p.1, stripConnections p.2 id)))
            else s.entryPoint⟩) := by
      rw [delete, h]
    have hnodes : (delete s id).2.nodes
        = (removeN s.nodes id).map
            (fun p => (p.1, stripConnections p.2 id)) := by
      rw [hdel]
    have hepq : (delete s id).2.entryPoint
        = if s.entryPoint = some id then
            maxLayerEntry ((removeN s.nodes id).map
              (fun p => (p.1, stripConnections p.2 id)))
          else s.entryPoint := by
      rw [hdel]
    have hfst : (delete s id).1 = true := by
      rw [hdel]
    have hlid : lookupN (delete s id).2.nodes id = none := by
      rw [hnodes, lookupN_map_strip, lookupN_removeN_self]
      rfl
    refine ⟨hfst, hlid, ?_, ?_, ?_, ?_⟩
    · intro hnd p hp l
      rw [hnodes] at hp
      rcases List.mem_map.mp hp with ⟨q, hq, rfl⟩
      show id ∉ (stripConnections q.2 id).getConnections l
      rw [getConnections_strip]
      exact
        (nodup_getConnections (hnd q (List.mem_of_mem_filter hq)) l).not_mem_erase
    · intro d config dimension query limit ef results hs
      exact search_not_mem d config dimension _ id query limit ef results
        hlid hs
    · intro hse
      rw [hnodes, hepq, if_pos hse]
      exact maxLayerEntry_spec _
    · intro hne
      rw [hepq, if_neg hne]

theorem hnsw_delete_spec_witness :
    (delete c7SState 1).1 = true ∧
      lookupN (delete c7SState 1).2.nodes 1 = none ∧
      ∀ p ∈ (delete c7SState 1).2.nodes, ∀ l,
        1 ∉ p.2.getConnections l :=
  ⟨((hnsw_delete_spec c7SState 1).2 ⟨1, [1], none, 0, [[0]]⟩ (by decide)).1,
    ((hnsw_delete_spec c7SState 1).2 ⟨1, [1], none, 0, [[0]]⟩
      (by decide)).2.1,
    ((hnsw_delete_spec c7SState 1).2 ⟨1, [1], none, 0, [[0]]⟩
      (by decide)).2.2.1 (by decide)⟩

end Hnsw

end DVec
